import Mathlib

/-!
# chat-protocol: a shallow embedding of `main.go`

The Go program is a line-oriented chat relay.  Each accepted connection is a
`Client` (a session) that parses lines and forwards requests to a single `Hub`,
which owns the user registry and the channels.

The embedding is by explicit state passing over a `World`:

* pointers `*Client` are references (`ClientRef`); the mutable `username` field
  lives in a heap indexed by reference;
* `conn.Write` calls and channel sends are recorded, oldest first, in two logs;
* a runtime panic (index or slice out of range, write to a nil map) is `none`;
* byte slices carry their capacity, because Go checks a slice expression
  `s[lo:hi]` against `cap(s)`, not `len(s)`.
-/

namespace ChatProtocol

/-! ## Bytes, strings and slices -/

/-- A Go `string`: an immutable sequence of bytes.  Throughout, a byte is a
natural number; real bytes are below 256 and nothing depends on the bound. -/
abbrev GoString := List Nat

/-- The bytes of an ASCII literal of the source. -/
def ascii (s : String) : List Nat := s.toList.map Char.toNat

/-- A Go `[]byte`: `data` is `s[0:len(s)]`, `spare` is the part of the backing
array between `len(s)` and `cap(s)`.  The nil slice has both empty. -/
structure Slice where
  data : List Nat
  spare : List Nat
  deriving DecidableEq, Repr

/-- The nil slice. -/
def Slice.nil : Slice := ⟨[], []⟩

/-- A freshly allocated slice whose capacity equals its length, as returned by
`bufio.Reader.ReadBytes`. -/
def Slice.fresh (bs : List Nat) : Slice := ⟨bs, []⟩

/-- Go `cap(s)`. -/
def Slice.cap (s : Slice) : Nat := s.data.length + s.spare.length

/-- The slice expression `s[lo:hi]` on a slice: it panics (`none`) unless
`0 ≤ lo ≤ hi ≤ cap(s)`; the result may reach into the spare capacity and
keeps the capacity that follows `hi`. -/
def Slice.slice (s : Slice) (lo hi : Int) : Option Slice :=
  if 0 ≤ lo ∧ lo ≤ hi ∧ hi ≤ (s.cap : Int) then
    let all := s.data ++ s.spare
    some ⟨(all.drop lo.toNat).take (hi.toNat - lo.toNat), all.drop hi.toNat⟩
  else none

/-! ## The parts of the Go standard library that the program calls -/

/-- UTF-8 encodings of the runes for which `unicode.IsSpace` holds: the six
ASCII ones, U+0085, U+00A0, U+1680, U+2000 to U+200A, U+2028, U+2029, U+202F,
U+205F and U+3000.  Go rejects overlong encodings, so each rune has one. -/
def spaceRunes : List (List Nat) :=
  [[0x09], [0x0A], [0x0B], [0x0C], [0x0D], [0x20],
   [0xC2, 0x85], [0xC2, 0xA0],
   [0xE1, 0x9A, 0x80],
   [0xE2, 0x80, 0x80], [0xE2, 0x80, 0x81], [0xE2, 0x80, 0x82], [0xE2, 0x80, 0x83],
   [0xE2, 0x80, 0x84], [0xE2, 0x80, 0x85], [0xE2, 0x80, 0x86], [0xE2, 0x80, 0x87],
   [0xE2, 0x80, 0x88], [0xE2, 0x80, 0x89], [0xE2, 0x80, 0x8A],
   [0xE2, 0x80, 0xA8], [0xE2, 0x80, 0xA9], [0xE2, 0x80, 0xAF],
   [0xE2, 0x81, 0x9F],
   [0xE3, 0x80, 0x80]]

/-- Number of bytes of the pattern of `pats` that `s` starts with, 0 when it
starts with none. -/
def leadingWidth (pats : List (List Nat)) (s : List Nat) : Nat :=
  match pats.find? (fun p => p.isPrefixOf s) with
  | some p => p.length
  | none => 0

/-- Drop leading patterns while there is one; `fuel` bounds the number of
rounds and `s.length` rounds always suffice. -/
def stripLeading (pats : List (List Nat)) : Nat → List Nat → List Nat
  | 0, s => s
  | fuel + 1, s =>
    match leadingWidth pats s with
    | 0 => s
    | k + 1 => stripLeading pats fuel (s.drop (k + 1))

/-- What `bytes.TrimLeftFunc(s, unicode.IsSpace)` keeps. -/
def trimLeftSpace (s : List Nat) : List Nat :=
  stripLeading spaceRunes s.length s

/-- What `bytes.TrimRightFunc(s, unicode.IsSpace)` keeps: the same scan from
the end, rune by rune. -/
def trimRightSpace (s : List Nat) : List Nat :=
  (stripLeading (spaceRunes.map List.reverse) s.length s.reverse).reverse

/-- Go `bytes.TrimSpace`: a subslice of `s` without its leading and trailing
white space as defined by Unicode.  The result shares the backing array, so
the bytes trimmed at the end stay reachable as spare capacity.  When nothing
is left the result is the nil slice. -/
def TrimSpace (s : Slice) : Slice :=
  let l := trimLeftSpace s.data
  if l = [] then Slice.nil
  else
    let k := trimRightSpace l
    ⟨k, l.drop k.length ++ s.spare⟩

/-- Go `bytes.TrimPrefix`: `s[len(prefix):]` when `s` starts with the prefix,
`s` itself otherwise. -/
def TrimPrefix (s : Slice) (pre : List Nat) : Slice :=
  if pre.isPrefixOf s.data then ⟨s.data.drop pre.length, s.spare⟩ else s

/-- The loop of `bytes.Split` for a non-empty separator: `cur` holds the
current piece reversed, `skip` counts the separator bytes still to pass over.
Every piece but the last has its capacity cut to its length; the last one keeps
the spare capacity of the input. -/
def splitGo (sep : List Nat) (spare : List Nat) : Nat → List Nat → List Nat → List Slice
  | _, cur, [] => [⟨cur.reverse, spare⟩]
  | skip + 1, cur, _ :: cs => splitGo sep spare skip cur cs
  | 0, cur, c :: cs =>
    if sep.isPrefixOf (c :: cs) then
      ⟨cur.reverse, []⟩ :: splitGo sep spare (sep.length - 1) [] cs
    else splitGo sep spare 0 (c :: cur) cs

/-- Go `bytes.Split(s, sep)` for a non-empty `sep` (the program only splits on
a space and on `DELIMITER`): the pieces between non-overlapping occurrences of
`sep`, found left to right. -/
def Split (s : Slice) (sep : List Nat) : List Slice :=
  splitGo sep s.spare 0 [] s.data

/-- Go `bytes.ToUpper`.  On ASCII-only input the letters a to z are mapped to
A to Z in a fresh copy.  On any other input Go returns
`bytes.Map(unicode.ToUpper, s)`, whose case tables are not part of this
program: that function is the parameter `unicodeUpper`. -/
def ToUpper (unicodeUpper : List Nat → List Nat) (s : List Nat) : List Nat :=
  if s.all (fun c => c < 0x80) then
    s.map (fun c => if 0x61 ≤ c ∧ c ≤ 0x7A then c - 0x20 else c)
  else unicodeUpper s

/-- Value of a string of ASCII digits, most significant first. -/
def digitsValue (ds : List Nat) : Nat :=
  ds.foldl (fun acc d => acc * 10 + (d - 0x30)) 0

/-- Whether the byte is one of `0` to `9`. -/
def isDigit (c : Nat) : Bool := 0x30 ≤ c && c ≤ 0x39

/-- Go `strconv.Atoi` on a 64-bit platform, `none` standing for a non-nil
error: an optional sign, then one or more decimal digits, the value within
the range of `int`. -/
def Atoi (s : GoString) : Option Int :=
  let neg := s.head? = some 0x2D
  let ds := if s.head? = some 0x2D ∨ s.head? = some 0x2B then s.tail else s
  if ds = [] ∨ ¬ ds.all isDigit then none
  else
    let un := digitsValue ds
    if neg then (if un ≤ 2 ^ 63 then some (-(un : Int)) else none)
    else (if un < 2 ^ 63 then some (un : Int) else none)

/-- The decimal representation of `n`, most significant digit first, as
`strconv.Itoa` prints a positive integer. -/
def decimal (n : Nat) : List Nat :=
  (Nat.digits 10 n).reverse.map (fun d => d + 0x30)

/-! ## Go maps -/

/-- A Go map as an association list; a key is looked up leftmost-first, so an
entry hidden behind an earlier one with the same key is dead. -/
abbrev GoMap (κ ν : Type) := List (κ × ν)

/-- The lookup `v, ok := m[k]`: `none` when `ok` is false. -/
def GoMap.lookup {κ ν : Type} [DecidableEq κ] : GoMap κ ν → κ → Option ν
  | [], _ => none
  | (k', v) :: rest, k => if k' = k then some v else GoMap.lookup rest k

/-- The assignment `m[k] = v` on a non-nil map. -/
def GoMap.set {κ ν : Type} [DecidableEq κ] (m : GoMap κ ν) (k : κ) (v : ν) : GoMap κ ν :=
  (k, v) :: m.filter (fun e => e.1 ≠ k)

/-- The builtin `delete(m, k)`. -/
def GoMap.delete {κ ν : Type} [DecidableEq κ] (m : GoMap κ ν) (k : κ) : GoMap κ ν :=
  m.filter (fun e => e.1 ≠ k)

/-- The keys a `range` over the map visits, each once.  Go leaves the order
unspecified; the order of the list is used. -/
def GoMap.keys {κ ν : Type} [DecidableEq κ] : GoMap κ ν → List κ
  | [] => []
  | (k, _) :: rest => k :: (GoMap.keys rest).filter (fun k' => k' ≠ k)

/-! ## The data model of `main.go` -/

/-- The literal `[]byte(backslash r backslash n)` in raw-string quotes: four
bytes, not a carriage return and a line feed. -/
def DELIMITER : List Nat := [0x5C, 0x72, 0x5C, 0x6E]

/-- The command identifiers, `iota` from `REG`. -/
inductive ID where
  | REG | JOIN | LEAVE | MSG | CHNS | USRS
  deriving DecidableEq, Repr

/-- A non-nil `*Client`: the identity of a session and of its connection. -/
abbrev ClientRef := Nat

/-- A `*Client` that may be nil (`none`). -/
abbrev ClientPtr := Option ClientRef

/-- The struct `Command`. -/
structure Command where
  id : ID
  recipient : GoString
  sender : GoString
  body : Slice
  deriving DecidableEq, Repr

/-- The struct `Channel`; `clients` is `none` for the nil map. -/
structure Channel where
  name : GoString
  clients : Option (GoMap ClientPtr Bool)
  deriving DecidableEq, Repr

/-- The function `newChannel`: the member map is left nil. -/
def newChannel (name : GoString) : Channel := ⟨name, none⟩

/-- The two maps of the struct `Hub`.  Its three Go channels are the log
`World.sent`. -/
structure Hub where
  channels : GoMap GoString Channel
  clients : GoMap GoString ClientRef
  deriving DecidableEq, Repr

/-- The function `newHub`: both maps allocated and empty. -/
def newHub : Hub := ⟨[], []⟩

/-- A value sent to the Hub on one of its three Go channels. -/
inductive HubInput where
  | registration (c : ClientRef)
  | deregistration (c : ClientRef)
  | command (cmd : Command)
  deriving DecidableEq, Repr

/-- The state the program acts on. -/
structure World where
  /-- The Hub. -/
  hub : Hub
  /-- The field `username` of every `Client`. -/
  username : ClientRef → GoString
  /-- The calls of `conn.Write`, oldest first: whose connection, which bytes. -/
  written : List (ClientRef × List Nat)
  /-- The sends on `register`, `unregister` and `outbound`, oldest first. -/
  sent : List HubInput

/-- The state at start: `newHub()`, no session has a name, nothing written or
sent. -/
def World.init : World := ⟨newHub, fun _ => [], [], []⟩

/-- Go `int` arithmetic on a 64-bit platform wraps around: the result is
brought into the range from `-2^63` to `2^63 - 1` (the literals are `2^63`
and `2^64`). -/
def wrapInt (x : Int) : Int :=
  (x + 9223372036854775808) % 18446744073709551616 - 9223372036854775808

/-! ## The session: `Client` -/

/-- The method `Client.reg`.  The result is `none` on a panic, otherwise the
returned `error` (`none` for nil) and the new state.  The index expression
`u[0]` is `head?`; its panic on an empty slice is passed on by `bind`. -/
def Client.reg (c : ClientRef) (args : Slice) (w : World) : Option (Option GoString × World) :=
  let u := TrimSpace args
  u.data.head?.bind fun u0 =>
  if u0 ≠ 0x40 then some (some (ascii "username must begin with @"), w)
  else if u.data.length = 0 then some (some (ascii "username cannot be blank"), w)
  else
    some (none, { w with
      username := Function.update w.username c u.data,
      sent := w.sent ++ [HubInput.registration c] })

/-- The method `Client.msg`, with the same result convention as `Client.reg`. -/
def Client.msg (c : ClientRef) (args : Slice) (w : World) : Option (Option GoString × World) :=
  let args := TrimSpace args
  args.data.head?.bind fun a0 =>
  if a0 ≠ 0x23 ∧ a0 ≠ 0x40 then
    some (some (ascii "recipient must be a channel (\x27#name\x27) or (\x27@user\x27)"), w)
  else
    (Split args [0x20]).head?.bind fun recipient =>
    if recipient.data.length = 0 then some (some (ascii "recipient must have a name"), w)
    else
      let args := TrimSpace (TrimPrefix args recipient.data)
      (Split args DELIMITER).head?.bind fun l =>
      match Atoi l.data with
      | none => some (some (ascii "body length must be present"), w)
      | some length =>
        if length = 0 then some (some (ascii "body length must be at least 1"), w)
        else
          let padding := wrapInt ((l.data.length : Int) + (DELIMITER.length : Int))
          (args.slice padding (wrapInt (padding + length))).bind fun body =>
          some (none, { w with
            sent := w.sent ++ [HubInput.command ⟨ID.MSG, recipient.data, w.username c, body⟩] })

/-- The method `Client.err`: one write of `"ERR " + e.Error() + "\n"`. -/
def Client.err (c : ClientRef) (e : GoString) (w : World) : World :=
  { w with written := w.written ++ [(c, ascii "ERR " ++ e ++ ascii "\n")] }

/-- The statement `if err := ...; err != nil { c.err(err) }` on what a handler
returned. -/
def Client.report (c : ClientRef) (r : Option GoString × World) : World :=
  match r.1 with
  | some e => Client.err c e r.2
  | none => r.2

/-- The method `Client.handle`; `none` on a panic. -/
def Client.handle (unicodeUpper : List Nat → List Nat) (c : ClientRef) (message : Slice)
    (w : World) : Option World :=
  (Split message [0x20]).head?.bind fun first =>
  let cmd := ToUpper unicodeUpper (TrimSpace first).data
  let args := TrimSpace (TrimPrefix message cmd)
  if cmd = ascii "REG" then (Client.reg c args w).map (Client.report c)
  else if cmd = ascii "MSG" then (Client.msg c args w).map (Client.report c)
  else some (Client.err c (ascii "unknown command " ++ cmd) w)

/-- What `bufio.Reader.ReadBytes` hands to `readLoop`: a line that ends in its
only newline, the end of the stream, or another error. -/
inductive ReadResult where
  | line (msg : List Nat)
  | eof
  | failed
  deriving DecidableEq, Repr

/-- One round of the loop of `Client.readLoop`; `none` on a panic. -/
def Client.readLoop (unicodeUpper : List Nat → List Nat) (c : ClientRef) (r : ReadResult)
    (w : World) : Option World :=
  match r with
  | ReadResult.eof => some { w with sent := w.sent ++ [HubInput.deregistration c] }
  | ReadResult.failed => some w
  | ReadResult.line msg => Client.handle unicodeUpper c (Slice.fresh msg) w

/-! ## The Hub -/

/-- The method `Hub.register`. -/
def Hub.register (c : ClientRef) (w : World) : World :=
  match GoMap.lookup w.hub.clients (w.username c) with
  | some _ =>
    { w with
      username := Function.update w.username c [],
      written := w.written ++ [(c, ascii "ERR username taken\n")] }
  | none =>
    { w with
      hub := { w.hub with clients := GoMap.set w.hub.clients (w.username c) c },
      written := w.written ++ [(c, ascii "OK\n")] }

/-- The method `Hub.unregister`; `delete` on a nil member map does nothing. -/
def Hub.unregister (c : ClientRef) (w : World) : World :=
  match GoMap.lookup w.hub.clients (w.username c) with
  | some _ =>
    { w with
      hub :=
        { clients := GoMap.delete w.hub.clients (w.username c),
          channels := w.hub.channels.map (fun e =>
            (e.1, { e.2 with clients := e.2.clients.map (fun m => GoMap.delete m (some c)) })) } }
  | none => w

/-- The assignment `channel.clients[client] = true`: a panic on the nil map. -/
def Channel.add (ch : Channel) (client : ClientPtr) : Option Channel :=
  match ch.clients with
  | none => none
  | some m => some { ch with clients := some (GoMap.set m client true) }

/-- The method `Hub.joinChannel`; `none` on a panic.  In the branch of an
unknown user `client` is the nil pointer. -/
def Hub.joinChannel (u : GoString) (c : GoString) (w : World) : Option World :=
  match GoMap.lookup w.hub.clients u with
  | some client =>
    match GoMap.lookup w.hub.channels c with
    | some channel =>
      match Channel.add channel (some client) with
      | none => none
      | some channel1 =>
        some { w with hub := { w.hub with channels := GoMap.set w.hub.channels c channel1 } }
    | none => some w
  | none =>
    let channels := GoMap.set w.hub.channels c (newChannel c)
    match GoMap.lookup channels c with
    | none => none
    | some channel =>
      match Channel.add channel none with
      | none => none
      | some channel1 =>
        some { w with hub := { w.hub with channels := GoMap.set channels c channel1 } }

/-- The method `Channel.broadcast`: one write per key of the member map; the
write through a nil member is a panic. -/
def Channel.broadcast (ch : Channel) (s : GoString) (m : Slice) (w : World) : Option World :=
  let msg := s ++ ascii ": " ++ m.data ++ ascii "\n"
  match ch.clients with
  | none => some w
  | some members =>
    (GoMap.keys members).foldlM (fun (w1 : World) (cl : ClientPtr) =>
      match cl with
      | none => none
      | some c1 => some { w1 with written := w1.written ++ [(c1, msg)] }) w

/-- Whether `_, ok := channel.clients[sender]` finds the key. -/
def Channel.has (ch : Channel) (client : ClientPtr) : Bool :=
  match ch.clients with
  | none => false
  | some m => (GoMap.lookup m client).isSome

/-- The method `Hub.message`; `none` on a panic (`r[0]` on the empty string). -/
def Hub.message (u : GoString) (r : GoString) (m : Slice) (w : World) : Option World :=
  match GoMap.lookup w.hub.clients u with
  | none => some w
  | some sender =>
    match r.head? with
    | none => none
    | some r0 =>
      if r0 = 0x23 then
        match GoMap.lookup w.hub.channels r with
        | none => some w
        | some channel =>
          if Channel.has channel (some sender) then
            Channel.broadcast channel (w.username sender) m w
          else some w
      else if r0 = 0x40 then
        match GoMap.lookup w.hub.clients r with
        | some user => some { w with written := w.written ++ [(user, m.data ++ [0x0A])] }
        | none => some { w with written := w.written ++ [(sender, ascii "ERR no such user")] }
      else some w

/-- One round of the loop of `Hub.run`, on the value its `select` received. -/
def Hub.run (input : HubInput) (w : World) : Option World :=
  match input with
  | HubInput.registration client => some (Hub.register client w)
  | HubInput.deregistration client => some (Hub.unregister client w)
  | HubInput.command cmd =>
    match cmd.id with
    | ID.JOIN => Hub.joinChannel cmd.sender cmd.recipient w
    | ID.LEAVE => some w
    | ID.MSG => Hub.message cmd.sender cmd.recipient cmd.body w
    | _ => some w

/-- The Hub receives, in order, what was sent since the log had `start`
entries.  The Go channels are unbuffered, so a send returns only once the Hub
has taken the value. -/
def Hub.receive (start : Nat) (w : World) : Option World :=
  (w.sent.drop start).foldlM (fun w1 input => Hub.run input w1) w

/-- A session reads once and the Hub then handles what the session sent. -/
def step (unicodeUpper : List Nat → List Nat) (c : ClientRef) (r : ReadResult) (w : World) :
    Option World :=
  match Client.readLoop unicodeUpper c r w with
  | none => none
  | some w1 => Hub.receive w.sent.length w1

/-! ## The states the Hub can reach -/

/-- The states the program can be in while nothing has panicked: the start,
then any number of rounds of `Hub.run` on any value (that is `Hub.register`,
`Hub.unregister`, `Hub.joinChannel` and `Hub.message` on any arguments).  The
sessions run in between; they write usernames and the two logs and never the
Hub (`Client.readLoop_hub`), so such a step is any change that keeps the Hub. -/
inductive Reachable : World → Prop where
  | init : Reachable World.init
  | hub (w w1 : World) (input : HubInput) :
      Reachable w → Hub.run input w = some w1 → Reachable w1
  | session (w w1 : World) : Reachable w → w1.hub = w.hub → Reachable w1

/-- The membership invariant: every member of every channel is a session, not
nil, that some key of the registry is bound to. -/
def MembersRegistered (w : World) : Prop :=
  ∀ e ∈ w.hub.channels, ∀ members, e.2.clients = some members →
    ∀ k ∈ GoMap.keys members, ∃ c, k = some c ∧ ∃ n, GoMap.lookup w.hub.clients n = some c

/-- What the sessions keep true between two reads: the empty name is no key of
the registry, and a session that has not yet sent itself on `unregister` has
either no username or a username that the registry binds to that session. -/
def NamesOwned (w : World) : Prop :=
  GoMap.lookup w.hub.clients [] = none ∧
  ∀ c, HubInput.deregistration c ∉ w.sent →
    w.username c = [] ∨ GoMap.lookup w.hub.clients (w.username c) = some c

/-- The runs of the program from a state `w0`, which may already hold channels
with members.  `Hub.register` and `Hub.unregister` are called as the program
calls them: inside `step`, on the session that has just sent itself, and a
session reads no more once it has met the end of its stream (`readLoop`
returns).  `Hub.joinChannel` and `Hub.message` are taken on any arguments.  A
step that panics has no successor. -/
inductive RunsFrom (w0 : World) : World → Prop where
  | start : RunsFrom w0 w0
  | read (w w1 : World) (unicodeUpper : List Nat → List Nat) (c : ClientRef) (r : ReadResult) :
      RunsFrom w0 w → HubInput.deregistration c ∉ w.sent →
      step unicodeUpper c r w = some w1 → RunsFrom w0 w1
  | join (w w1 : World) (u g : GoString) :
      RunsFrom w0 w → Hub.joinChannel u g w = some w1 → RunsFrom w0 w1
  | message (w w1 : World) (u r : GoString) (m : Slice) :
      RunsFrom w0 w → Hub.message u r m w = some w1 → RunsFrom w0 w1

/-! ## Example states -/

/-- A registry holding `@a` for session 1, and session 2 asking for `@a`. -/
def takenWorld : World :=
  { hub := ⟨[], [(ascii "@a", 1)]⟩,
    username := fun c => if c = 1 ∨ c = 2 then ascii "@a" else [],
    written := [],
    sent := [] }

/-- A registry holding `@a` for session 1, and session 2 asking for `@b`. -/
def freeWorld : World :=
  { hub := ⟨[], [(ascii "@a", 1)]⟩,
    username := fun c => if c = 1 then ascii "@a" else if c = 2 then ascii "@b" else [],
    written := [],
    sent := [] }

/-- A Hub with the group `#g` of sessions 1 and 2, registered as `@a` and `@b`,
and session 3 registered as `@c` outside the group. -/
def groupWorld : World :=
  { hub := ⟨[(ascii "#g", ⟨ascii "#g", some [(some 1, true), (some 2, true)]⟩)],
      [(ascii "@a", 1), (ascii "@b", 2), (ascii "@c", 3)]⟩,
    username := fun c =>
      if c = 1 then ascii "@a" else if c = 2 then ascii "@b" else if c = 3 then ascii "@c" else [],
    written := [],
    sent := [] }

/-- The state `groupWorld` after `@c` has joined `#g`. -/
def groupWorldJoined : World :=
  { hub := ⟨[(ascii "#g",
        ⟨ascii "#g", some [(some 3, true), (some 1, true), (some 2, true)]⟩)],
      [(ascii "@a", 1), (ascii "@b", 2), (ascii "@c", 3)]⟩,
    username := groupWorld.username,
    written := [],
    sent := [] }

/-- The state `groupWorldJoined` after session 2 has met the end of its stream
and the Hub has unregistered it. -/
def groupWorldLeft : World :=
  { hub := ⟨[(ascii "#g", ⟨ascii "#g", some [(some 3, true), (some 1, true)]⟩)],
      [(ascii "@a", 1), (ascii "@c", 3)]⟩,
    username := groupWorld.username,
    written := [],
    sent := [HubInput.deregistration 2] }

/-! ## Lemmas on Go maps -/

theorem GoMap.lookup_filter_ne {κ ν : Type} [DecidableEq κ] (m : GoMap κ ν) (k k' : κ)
    (h : k' ≠ k) :
    GoMap.lookup (m.filter (fun e => e.1 ≠ k)) k' = GoMap.lookup m k' := by
  induction m with
  | nil => rfl
  | cons e rest ih =>
    obtain ⟨a, v⟩ := e
    by_cases hak : a = k
    · subst hak
      have hne : ¬ a = k' := fun h' => h h'.symm
      rw [List.filter_cons_of_neg (by simp)]
      simp only [GoMap.lookup, hne, if_false]
      exact ih
    · rw [List.filter_cons_of_pos (by simp [hak])]
      by_cases hak' : a = k'
      · simp [GoMap.lookup, hak']
      · simp only [GoMap.lookup, hak', if_false]
        exact ih

theorem GoMap.lookup_filter_self {κ ν : Type} [DecidableEq κ] (m : GoMap κ ν) (k : κ) :
    GoMap.lookup (m.filter (fun e => e.1 ≠ k)) k = none := by
  induction m with
  | nil => rfl
  | cons e rest ih =>
    obtain ⟨a, v⟩ := e
    by_cases hak : a = k
    · rw [List.filter_cons_of_neg (by simp [hak])]
      exact ih
    · rw [List.filter_cons_of_pos (by simp [hak])]
      simp only [GoMap.lookup, hak, if_false]
      exact ih

theorem GoMap.lookup_set_self {κ ν : Type} [DecidableEq κ] (m : GoMap κ ν) (k : κ) (v : ν) :
    GoMap.lookup (GoMap.set m k v) k = some v := by
  simp [GoMap.set, GoMap.lookup]

theorem GoMap.lookup_set_ne {κ ν : Type} [DecidableEq κ] (m : GoMap κ ν) (k k' : κ) (v : ν)
    (h : k' ≠ k) :
    GoMap.lookup (GoMap.set m k v) k' = GoMap.lookup m k' := by
  have hne : ¬ k = k' := fun h' => h h'.symm
  simp only [GoMap.set, GoMap.lookup, hne, if_false]
  exact GoMap.lookup_filter_ne m k k' h

/-! ## Lemmas on the library functions -/

/-- A byte that occurs in no pattern does not take part in a match. -/
theorem isPrefixOf_append_stopper (p a t : List Nat) (c : Nat) (hc : c ∉ p) :
    p.isPrefixOf (a ++ c :: t) = p.isPrefixOf a := by
  induction p generalizing a with
  | nil => simp
  | cons q qs ih =>
    have hq : q ≠ c := fun h => hc (h ▸ List.mem_cons_self q qs)
    have hqs : c ∉ qs := fun h => hc (List.mem_cons_of_mem q h)
    cases a with
    | nil => simp [List.isPrefixOf, hq]
    | cons x xs => simp [List.isPrefixOf, ih xs hqs]

theorem leadingWidth_append_stopper (pats : List (List Nat)) (a t : List Nat) (c : Nat)
    (hc : ∀ p ∈ pats, c ∉ p) :
    leadingWidth pats (a ++ c :: t) = leadingWidth pats a := by
  unfold leadingWidth
  have e : pats.find? (fun p => p.isPrefixOf (a ++ c :: t)) = pats.find? (fun p => p.isPrefixOf a) := by
    induction pats with
    | nil => rfl
    | cons p ps ih =>
      have h1 := isPrefixOf_append_stopper p a t c (hc p (List.mem_cons_self p ps))
      simp only [List.find?, h1]
      cases p.isPrefixOf a with
      | true => rfl
      | false => exact ih (fun q hq => hc q (List.mem_cons_of_mem p hq))
  rw [e]

theorem leadingWidth_le (pats : List (List Nat)) (a : List Nat) :
    leadingWidth pats a ≤ a.length := by
  unfold leadingWidth
  cases h : pats.find? (fun p => p.isPrefixOf a) with
  | none => simp
  | some p =>
    have hp := List.find?_some h
    exact (List.isPrefixOf_iff_prefix.mp hp).length_le

theorem stripLeading_append_stopper (pats : List (List Nat)) (t : List Nat) (c : Nat)
    (hc : ∀ p ∈ pats, c ∉ p) :
    ∀ (f : Nat) (a : List Nat) (g : Nat), a.length ≤ f → f < g →
      stripLeading pats g (a ++ c :: t) = stripLeading pats f a ++ c :: t := by
  intro f
  induction f with
  | zero =>
    intro a g ha hg
    have ha0 : a = [] := List.length_eq_zero.mp (Nat.le_zero.mp ha)
    subst ha0
    obtain ⟨g1, rfl⟩ : ∃ g1, g = g1 + 1 := ⟨g - 1, by omega⟩
    have hw : leadingWidth pats ([] ++ c :: t) = 0 := by
      rw [leadingWidth_append_stopper pats [] t c hc]
      have := leadingWidth_le pats []
      simpa using this
    simp only [stripLeading, hw]
  | succ f ih =>
    intro a g ha hg
    obtain ⟨g1, rfl⟩ : ∃ g1, g = g1 + 1 := ⟨g - 1, by omega⟩
    have hw := leadingWidth_append_stopper pats a t c hc
    have hle := leadingWidth_le pats a
    cases hk : leadingWidth pats a with
    | zero =>
      rw [hk] at hw
      simp only [stripLeading, hw, hk]
    | succ k =>
      rw [hk] at hw hle
      simp only [stripLeading, hw, hk]
      have hd : List.drop (k + 1) (a ++ c :: t) = List.drop (k + 1) a ++ c :: t :=
        List.drop_append_of_le_length hle
      rw [hd]
      apply ih
      · simp only [List.length_drop]
        omega
      · omega

theorem stripLeading_suffix (pats : List (List Nat)) :
    ∀ (f : Nat) (s : List Nat), stripLeading pats f s <:+ s := by
  intro f
  induction f with
  | zero => intro s; exact List.suffix_refl s
  | succ f ih =>
    intro s
    cases hk : leadingWidth pats s with
    | zero =>
      simp only [stripLeading, hk]
      exact List.suffix_refl s
    | succ k =>
      simp only [stripLeading, hk]
      exact (ih _).trans (List.drop_suffix _ _)

/-- The fuel of `stripLeading` is enough: with at least `s.length` rounds the
result starts with no pattern. -/
theorem stripLeading_done (pats : List (List Nat)) :
    ∀ (f : Nat) (s : List Nat), s.length ≤ f → leadingWidth pats (stripLeading pats f s) = 0 := by
  intro f
  induction f with
  | zero =>
    intro s hs
    have h := leadingWidth_le pats s
    simp only [stripLeading]
    omega
  | succ f ih =>
    intro s hs
    cases hk : leadingWidth pats s with
    | zero =>
      simp only [stripLeading, hk]
    | succ k =>
      simp only [stripLeading, hk]
      apply ih
      simp only [List.length_drop]
      omega

/-- What `trimLeftSpace` keeps does not start with a white-space rune. -/
theorem trimLeftSpace_done (s : List Nat) : leadingWidth spaceRunes (trimLeftSpace s) = 0 :=
  stripLeading_done spaceRunes s.length s (Nat.le_refl _)

/-- The bytes that occur in a white-space rune are the six ASCII spaces and
bytes from 0x80 on. -/
theorem not_mem_spaceRunes (c : Nat) (h1 : c < 0x80)
    (h2 : c ≠ 0x09 ∧ c ≠ 0x0A ∧ c ≠ 0x0B ∧ c ≠ 0x0C ∧ c ≠ 0x0D ∧ c ≠ 0x20) :
    ∀ p ∈ spaceRunes, c ∉ p := by
  intro p hp hcp
  simp only [spaceRunes, List.mem_cons, List.mem_singleton, List.not_mem_nil, or_false] at hp
  rcases hp with h | h | h | h | h | h | h | h | h | h | h | h | h | h | h | h | h | h | h | h |
    h | h | h | h | h <;>
  · subst h
    simp only [List.mem_cons, List.mem_singleton, List.not_mem_nil, or_false] at hcp
    omega

theorem not_mem_spaceRunes_reverse (c : Nat) (h1 : c < 0x80)
    (h2 : c ≠ 0x09 ∧ c ≠ 0x0A ∧ c ≠ 0x0B ∧ c ≠ 0x0C ∧ c ≠ 0x0D ∧ c ≠ 0x20) :
    ∀ p ∈ spaceRunes.map List.reverse, c ∉ p := by
  intro p hp hcp
  obtain ⟨q, hq, rfl⟩ := List.mem_map.mp hp
  exact not_mem_spaceRunes c h1 h2 q hq (List.mem_reverse.mp hcp)

/-- Leading trimming stops at an ASCII byte that is not a space. -/
theorem trimLeftSpace_stopper (c : Nat) (t : List Nat) (h1 : c < 0x80)
    (h2 : c ≠ 0x09 ∧ c ≠ 0x0A ∧ c ≠ 0x0B ∧ c ≠ 0x0C ∧ c ≠ 0x0D ∧ c ≠ 0x20) :
    trimLeftSpace (c :: t) = c :: t := by
  have h := stripLeading_append_stopper spaceRunes t c (not_mem_spaceRunes c h1 h2) 0 []
    (c :: t).length (Nat.le_refl _) (by simp)
  simpa [trimLeftSpace, stripLeading] using h

/-- Leading trimming removes one ASCII space in front of a stopping byte. -/
theorem trimLeftSpace_space_stopper (c : Nat) (t : List Nat) (h1 : c < 0x80)
    (h2 : c ≠ 0x09 ∧ c ≠ 0x0A ∧ c ≠ 0x0B ∧ c ≠ 0x0C ∧ c ≠ 0x0D ∧ c ≠ 0x20) :
    trimLeftSpace (0x20 :: c :: t) = c :: t := by
  have h := stripLeading_append_stopper spaceRunes t c (not_mem_spaceRunes c h1 h2) 1 [0x20]
    (0x20 :: c :: t).length (Nat.le_refl _) (by simp)
  have e : stripLeading spaceRunes 1 [0x20] = [] := by decide
  rw [e] at h
  simpa [trimLeftSpace] using h

/-- Trailing trimming does not pass an ASCII byte that is not a space. -/
theorem trimRightSpace_stopper (x y : List Nat) (c : Nat) (h1 : c < 0x80)
    (h2 : c ≠ 0x09 ∧ c ≠ 0x0A ∧ c ≠ 0x0B ∧ c ≠ 0x0C ∧ c ≠ 0x0D ∧ c ≠ 0x20) :
    trimRightSpace (x ++ c :: y) = x ++ c :: trimRightSpace y := by
  have h := stripLeading_append_stopper (spaceRunes.map List.reverse) x.reverse c
    (not_mem_spaceRunes_reverse c h1 h2) y.length y.reverse (x ++ c :: y).length
    (by simp) (by simp; omega)
  unfold trimRightSpace
  have e : (x ++ c :: y).reverse = y.reverse ++ c :: x.reverse := by simp
  rw [e, h]
  simp

/-- Trailing trimming keeps a prefix. -/
theorem trimRightSpace_prefix (y : List Nat) : trimRightSpace y <+: y := by
  unfold trimRightSpace
  have h := stripLeading_suffix (spaceRunes.map List.reverse) y.length y.reverse
  have := List.reverse_prefix.mpr h
  simpa using this

/-- The shape of `TrimSpace` on input whose left-trimmed content holds a
stopping byte `c`: the content is kept up to `c` and beyond, and what is cut
at the end moves to the spare capacity. -/
theorem TrimSpace_stopper (data sp x y : List Nat) (c : Nat) (h1 : c < 0x80)
    (h2 : c ≠ 0x09 ∧ c ≠ 0x0A ∧ c ≠ 0x0B ∧ c ≠ 0x0C ∧ c ≠ 0x0D ∧ c ≠ 0x20)
    (hl : trimLeftSpace data = x ++ c :: y) :
    ∃ y1 y2, y = y1 ++ y2 ∧ TrimSpace ⟨data, sp⟩ = ⟨x ++ c :: y1, y2 ++ sp⟩ := by
  obtain ⟨y2, hy⟩ := trimRightSpace_prefix y
  refine ⟨trimRightSpace y, y2, hy.symm, ?_⟩
  have hne : x ++ c :: y ≠ [] := by simp
  simp only [TrimSpace, hl, hne, if_false, trimRightSpace_stopper x y c h1 h2]
  congr 1
  have e : x ++ c :: y = (x ++ c :: trimRightSpace y) ++ y2 := by
    rw [List.append_assoc, List.cons_append, hy]
  rw [e, List.drop_left]

theorem TrimPrefix_append (r t sp : List Nat) : TrimPrefix ⟨r ++ t, sp⟩ r = ⟨t, sp⟩ := by
  have hp : r.isPrefixOf (r ++ t) = true := by
    rw [List.isPrefixOf_iff_prefix]
    exact ⟨t, rfl⟩
  simp only [TrimPrefix, hp, if_true, List.drop_left]

/-- The first piece of a split ends at the first separator when the first byte
of the separator does not occur before it. -/
theorem splitGo_head (s0 : Nat) (ss spare : List Nat) (a t : List Nat) (h : s0 ∉ a) :
    ∀ cur, ∃ rest, splitGo (s0 :: ss) spare 0 cur (a ++ (s0 :: ss) ++ t)
      = ⟨cur.reverse ++ a, []⟩ :: rest := by
  induction a with
  | nil =>
    intro cur
    refine ⟨splitGo (s0 :: ss) spare ((s0 :: ss).length - 1) [] (ss ++ t), ?_⟩
    have hp : (s0 :: ss).isPrefixOf (s0 :: (ss ++ t)) = true := by
      rw [List.isPrefixOf_iff_prefix]
      exact ⟨t, by simp⟩
    have e : [] ++ (s0 :: ss) ++ t = s0 :: (ss ++ t) := by simp
    rw [e, splitGo, if_pos hp, List.append_nil]
  | cons x xs ih =>
    intro cur
    have hx : s0 ≠ x := fun e => h (e ▸ List.mem_cons_self x xs)
    have hxs : s0 ∉ xs := fun e => h (List.mem_cons_of_mem x e)
    obtain ⟨rest, hrest⟩ := ih hxs (x :: cur)
    refine ⟨rest, ?_⟩
    have hp : (s0 :: ss).isPrefixOf (x :: (xs ++ (s0 :: ss) ++ t)) = false := by
      simp [List.isPrefixOf, hx]
    have e : (x :: xs) ++ (s0 :: ss) ++ t = x :: (xs ++ (s0 :: ss) ++ t) := by simp
    rw [e]
    simp only [splitGo, hp, hrest]
    simp

theorem Split_head (s0 : Nat) (ss spare : List Nat) (a t : List Nat) (h : s0 ∉ a) :
    ∃ rest, Split ⟨a ++ (s0 :: ss) ++ t, spare⟩ (s0 :: ss) = ⟨a, []⟩ :: rest := by
  obtain ⟨rest, hrest⟩ := splitGo_head s0 ss spare a t h []
  exact ⟨rest, by simpa [Split] using hrest⟩

theorem digitsValue_append (xs : List Nat) (d : Nat) :
    digitsValue (xs ++ [d]) = digitsValue xs * 10 + (d - 0x30) := by
  simp [digitsValue, List.foldl_append]

theorem digitsValue_decimal (L : List Nat) :
    digitsValue (L.reverse.map (fun d => d + 0x30)) = Nat.ofDigits 10 L := by
  induction L with
  | nil => rfl
  | cons d L ih =>
    rw [List.reverse_cons, List.map_append, List.map_singleton, digitsValue_append, ih,
      Nat.ofDigits_cons]
    omega

theorem decimal_all_digit (n : Nat) : ∀ c ∈ decimal n, 0x30 ≤ c ∧ c ≤ 0x39 := by
  intro c hc
  obtain ⟨d, hd, rfl⟩ := List.mem_map.mp hc
  have := Nat.digits_lt_base (by norm_num : 1 < 10) (List.mem_reverse.mp hd)
  omega

theorem decimal_ne_nil (n : Nat) (hn : 0 < n) : decimal n ≠ [] := by
  intro h
  have h2 : Nat.digits 10 n = [] := by
    have := congrArg List.length h
    simp only [decimal, List.length_map, List.length_reverse, List.length_nil] at this
    exact List.length_eq_zero.mp this
  exact (Nat.digits_ne_nil_iff_ne_zero.mpr (Nat.pos_iff_ne_zero.mp hn)) h2

/-- The function `Atoi` reads back the decimal representation of a positive
`int`. -/
theorem Atoi_decimal (n : Nat) (hn : 0 < n) (hfit : n < 2 ^ 63) :
    Atoi (decimal n) = some (n : Int) := by
  have hne := decimal_ne_nil n hn
  have hall := decimal_all_digit n
  obtain ⟨d, ds, hd⟩ := List.exists_cons_of_ne_nil hne
  have hd0 := hall d (hd ▸ List.mem_cons_self d ds)
  have h1 : (decimal n).head? ≠ some 0x2D := by
    rw [hd]; simp; omega
  have h2 : (decimal n).head? ≠ some 0x2B := by
    rw [hd]; simp; omega
  have h3 : (decimal n).all isDigit = true := by
    rw [List.all_eq_true]
    intro c hc
    have := hall c hc
    simp [isDigit]
    omega
  have h4 : digitsValue (decimal n) = n := by
    unfold decimal
    rw [digitsValue_decimal, Nat.ofDigits_digits]
  simp only [Atoi, h1, h2, or_self, if_false, hne, h3, h4, not_true_eq_false, hfit, if_true,
    decide_False, Bool.false_eq_true]

theorem wrapInt_of_fits (x : Int) (h0 : 0 ≤ x) (h1 : x < 2 ^ 63) : wrapInt x = x := by
  unfold wrapInt
  omega

/-- The slice expression that cuts `b` out of `pre ++ b ++ sp`. -/
theorem Slice.slice_middle (data spare pre b sp : List Nat)
    (h : data ++ spare = pre ++ b ++ sp) :
    Slice.slice ⟨data, spare⟩ (pre.length : Int) ((pre.length : Int) + (b.length : Int))
      = some ⟨b, sp⟩ := by
  have hcap : (Slice.cap ⟨data, spare⟩ : Int) = (pre.length + b.length + sp.length : Nat) := by
    have := congrArg List.length h
    simp only [List.length_append] at this
    simp only [Slice.cap]
    exact_mod_cast this
  have hc : (0 : Int) ≤ pre.length ∧ (pre.length : Int) ≤ pre.length + b.length ∧
      (pre.length : Int) + b.length ≤ (Slice.cap ⟨data, spare⟩ : Int) := by
    rw [hcap]
    push_cast
    omega
  have e1 : ((pre.length : Int) + (b.length : Int)).toNat = pre.length + b.length := by
    omega
  simp only [Slice.slice, hc, and_self, if_true, h, Int.toNat_ofNat, e1]
  simp [List.drop_append, List.take_append]

/-! ## Registration -/

/-- C1: when the candidate username of session `c` is already a key of the
registry, `Hub.register` writes exactly `ERR username taken` and a newline to
the connection of `c`, clears the username of `c`, and leaves the Hub (registry
and channels) as it was, so the name is still bound to the session that held
it; no other username changes and nothing is sent. -/
theorem register_taken (w : World) (c t : ClientRef)
    (h : GoMap.lookup w.hub.clients (w.username c) = some t) :
    (Hub.register c w).written = w.written ++ [(c, ascii "ERR username taken\n")] ∧
    (Hub.register c w).username c = [] ∧
    (Hub.register c w).hub.clients = w.hub.clients ∧
    GoMap.lookup (Hub.register c w).hub.clients (w.username c) = some t ∧
    (Hub.register c w).hub.channels = w.hub.channels ∧
    (∀ d, d ≠ c → (Hub.register c w).username d = w.username d) ∧
    (Hub.register c w).sent = w.sent := by
  have e : Hub.register c w = { w with
      username := Function.update w.username c [],
      written := w.written ++ [(c, ascii "ERR username taken\n")] } := by
    simp only [Hub.register, h]
  rw [e]
  refine ⟨rfl, ?_, rfl, h, rfl, ?_, rfl⟩
  · exact Function.update_same c [] w.username
  · intro d hd
    exact Function.update_noteq hd [] w.username

theorem register_taken_witness :
    GoMap.lookup takenWorld.hub.clients (takenWorld.username 2) = some 1 ∧
    (Hub.register 2 takenWorld).written = [(2, ascii "ERR username taken\n")] ∧
    (Hub.register 2 takenWorld).username 2 = [] ∧
    (Hub.register 2 takenWorld).hub.clients = [(ascii "@a", 1)] :=
  ⟨by decide, (register_taken takenWorld 2 1 (by decide)).1,
    (register_taken takenWorld 2 1 (by decide)).2.1,
    (register_taken takenWorld 2 1 (by decide)).2.2.1⟩

/-- C2: when the candidate username `n` of session `c` is not a key of the
registry, `Hub.register` writes exactly `OK` and a newline to the connection of
`c`; the new registry maps `n` to `c` and agrees with the old one on every
other key; the channels and every username, that of `c` included, are
unchanged. -/
theorem register_free (w : World) (c : ClientRef)
    (h : GoMap.lookup w.hub.clients (w.username c) = none) :
    (Hub.register c w).written = w.written ++ [(c, ascii "OK\n")] ∧
    GoMap.lookup (Hub.register c w).hub.clients (w.username c) = some c ∧
    (∀ k, k ≠ w.username c →
      GoMap.lookup (Hub.register c w).hub.clients k = GoMap.lookup w.hub.clients k) ∧
    (Hub.register c w).hub.channels = w.hub.channels ∧
    (Hub.register c w).username = w.username ∧
    (Hub.register c w).sent = w.sent := by
  have e : Hub.register c w = { w with
      hub := { w.hub with clients := GoMap.set w.hub.clients (w.username c) c },
      written := w.written ++ [(c, ascii "OK\n")] } := by
    simp only [Hub.register, h]
  rw [e]
  exact ⟨rfl, GoMap.lookup_set_self _ _ _, fun k hk => GoMap.lookup_set_ne _ _ _ _ hk,
    rfl, rfl, rfl⟩

theorem register_free_witness :
    GoMap.lookup freeWorld.hub.clients (freeWorld.username 2) = none ∧
    (Hub.register 2 freeWorld).written = [(2, ascii "OK\n")] ∧
    GoMap.lookup (Hub.register 2 freeWorld).hub.clients (ascii "@b") = some 2 ∧
    GoMap.lookup (Hub.register 2 freeWorld).hub.clients (ascii "@a") = some 1 :=
  ⟨by decide, (register_free freeWorld 2 (by decide)).1,
    (register_free freeWorld 2 (by decide)).2.1,
    ((register_free freeWorld 2 (by decide)).2.2.1 (ascii "@a") (by decide)).trans (by decide)⟩

/-- C3: a session that registered `@a` and then `@b` is not removed by
`Hub.unregister`: after its disconnect has been handled the registry still
binds `@a` to it.  The same happens after a rejected second `REG`, which
clears the username that `Hub.unregister` looks up. -/
theorem unregister_leaves_earlier_name :
    (((step (fun s => s) 1 (ReadResult.line (ascii "REG @a\n")) World.init).bind
        (step (fun s => s) 1 (ReadResult.line (ascii "REG @b\n")))).bind
        (step (fun s => s) 1 ReadResult.eof)).map (fun w => (w.hub.clients, w.sent))
      = some ([(ascii "@a", 1)],
          [HubInput.registration 1, HubInput.registration 1, HubInput.deregistration 1]) ∧
    (((step (fun s => s) 1 (ReadResult.line (ascii "REG @a\n")) World.init).bind
        (step (fun s => s) 1 (ReadResult.line (ascii "REG @a\n")))).bind
        (step (fun s => s) 1 ReadResult.eof)).map (fun w => (w.hub.clients, w.sent))
      = some ([(ascii "@a", 1)],
          [HubInput.registration 1, HubInput.registration 1, HubInput.deregistration 1]) := by
  constructor <;> rfl

/-! ## Parsing a line -/

/-- C4: the line `REG` followed by a newline makes `Client.handle` panic, for
every session and state: the argument is empty and `Client.reg` indexes its
first byte. -/
theorem handle_bare_REG_panics (unicodeUpper : List Nat → List Nat) (c : ClientRef)
    (w : World) :
    Client.handle unicodeUpper c (Slice.fresh (ascii "REG\n")) w = none := by
  rfl

/-- On an argument whose trimmed text does not begin with `@`, `Client.reg`
returns `username must begin with @` and changes nothing. -/
theorem reg_without_sigil (c : ClientRef) (args : Slice) (w : World) (u0 : Nat) (us : List Nat)
    (h : (TrimSpace args).data = u0 :: us) (h0 : u0 ≠ 0x40) :
    Client.reg c args w = some (some (ascii "username must begin with @"), w) := by
  simp [Client.reg, h, h0]

/-- On an argument whose trimmed text begins with `@`, `Client.reg` sets the
username to the trimmed text and sends the session on the registration queue. -/
theorem reg_with_sigil (c : ClientRef) (args : Slice) (w : World) (us : List Nat)
    (h : (TrimSpace args).data = 0x40 :: us) :
    Client.reg c args w = some (none, { w with
      username := Function.update w.username c (0x40 :: us),
      sent := w.sent ++ [HubInput.registration c] }) := by
  simp [Client.reg, h]

/-- C5: on an argument that is empty after trimming, `Client.reg` panics and
returns no error at all, so `username cannot be blank` is not reported: the
first byte is read before the length is tested. -/
theorem reg_blank_panics (c : ClientRef) (args : Slice) (w : World)
    (h : (TrimSpace args).data = []) :
    Client.reg c args w = none := by
  simp [Client.reg, h]

theorem reg_blank_panics_witness :
    (TrimSpace (Slice.fresh (ascii " \n"))).data = [] ∧
    Client.reg 1 (Slice.fresh (ascii " \n")) World.init = none :=
  ⟨by decide, reg_blank_panics 1 (Slice.fresh (ascii " \n")) World.init (by decide)⟩

/-- C6: the line `reg @a` is answered with `ERR username must begin with @`
and forwards nothing, while `REG @a` forwards a registration and writes
nothing: the command token is upper-cased before it is stripped from the line,
so a lower-case token stays in the argument text. -/
theorem handle_lowercase_reg_differs :
    (Client.handle (fun s => s) 1 (Slice.fresh (ascii "reg @a\n")) World.init).map
        (fun w => (w.written, w.sent))
      = some ([(1, ascii "ERR username must begin with @\n")], []) ∧
    (Client.handle (fun s => s) 1 (Slice.fresh (ascii "REG @a\n")) World.init).map
        (fun w => (w.written, w.sent, w.username 1))
      = some ([], [HubInput.registration 1], ascii "@a") := by
  decide

/-- C7: for a recipient `r` that begins with `#` or `@` and holds no space, a
positive `n` and a body `b` of exactly `n` bytes, `Client.msg` on the argument
text `r`, a space, the decimal digits of `n`, `DELIMITER`, `b` returns no error
and sends exactly one `Command`: id `MSG`, recipient `r`, sender the username
of the session, body exactly `b`.  The argument is a Go slice, so its length
fits an `int`; `spare` is whatever capacity follows it. -/
theorem msg_extracts_body (c : ClientRef) (w : World) (r : GoString) (n : Nat)
    (b spare : List Nat)
    (hr0 : r.head? = some 0x23 ∨ r.head? = some 0x40) (hsp : 0x20 ∉ r)
    (hn : 0 < n) (hb : b.length = n)
    (hfit : (r ++ [0x20] ++ decimal n ++ DELIMITER ++ b).length < 2 ^ 63) :
    Client.msg c ⟨r ++ [0x20] ++ decimal n ++ DELIMITER ++ b, spare⟩ w =
      some (none, { w with sent := w.sent ++
        [HubInput.command ⟨ID.MSG, r, w.username c, ⟨b, spare⟩⟩] }) := by
  obtain ⟨r0, rs, hr, hr0v⟩ : ∃ r0 rs, r = r0 :: rs ∧ (r0 = 0x23 ∨ r0 = 0x40) := by
    cases r with
    | nil => simp at hr0
    | cons r0 rs => exact ⟨r0, rs, rfl, by simpa using hr0⟩
  obtain ⟨d, ds, hd⟩ := List.exists_cons_of_ne_nil (decimal_ne_nil n hn)
  have hdd := decimal_all_digit n d (hd ▸ List.mem_cons_self d ds)
  have hlen : r.length + 1 + (decimal n).length + 4 + n < 2 ^ 63 := by
    simp only [List.length_append, List.length_singleton, DELIMITER, List.length_cons,
      List.length_nil, hb] at hfit
    omega
  -- the first TrimSpace
  have hl1 : trimLeftSpace (r ++ [0x20] ++ decimal n ++ DELIMITER ++ b)
      = (r ++ 0x20 :: (decimal n ++ [0x5C, 0x72, 0x5C])) ++ 0x6E :: b := by
    have e : r ++ [0x20] ++ decimal n ++ DELIMITER ++ b
        = r0 :: (rs ++ 0x20 :: (decimal n ++ [0x5C, 0x72, 0x5C]) ++ 0x6E :: b) := by
      simp [hr, DELIMITER]
    rw [e, trimLeftSpace_stopper r0 _ (by omega) (by omega), hr]
    simp
  obtain ⟨b1, b2, hb12, hT1⟩ := TrimSpace_stopper _ spare _ b 0x6E (by norm_num)
    (by norm_num) hl1
  have hA1 : (r ++ 0x20 :: (decimal n ++ [0x5C, 0x72, 0x5C])) ++ 0x6E :: b1
      = r ++ [0x20] ++ (decimal n ++ DELIMITER ++ b1) := by
    simp [DELIMITER]
  rw [hA1] at hT1
  have hhead : (r ++ [0x20] ++ (decimal n ++ DELIMITER ++ b1)).head? = some r0 := by
    simp [hr]
  obtain ⟨rest1, hS1⟩ := Split_head 0x20 [] (b2 ++ spare) r (decimal n ++ DELIMITER ++ b1) hsp
  have hrlen : ¬ r.length = 0 := by simp [hr]
  have hP : TrimPrefix ⟨r ++ [0x20] ++ (decimal n ++ DELIMITER ++ b1), b2 ++ spare⟩ r
      = ⟨0x20 :: (decimal n ++ DELIMITER ++ b1), b2 ++ spare⟩ := by
    rw [List.append_assoc, TrimPrefix_append]
    rfl
  -- the second TrimSpace
  have hl2 : trimLeftSpace (0x20 :: (decimal n ++ DELIMITER ++ b1))
      = (decimal n ++ [0x5C, 0x72, 0x5C]) ++ 0x6E :: b1 := by
    have e : (0x20 :: (decimal n ++ DELIMITER ++ b1))
        = 0x20 :: d :: (ds ++ [0x5C, 0x72, 0x5C] ++ 0x6E :: b1) := by
      simp [hd, DELIMITER]
    rw [e, trimLeftSpace_space_stopper d _ (by omega) (by omega), hd]
    simp
  obtain ⟨b11, b12, hb112, hT2⟩ := TrimSpace_stopper _ (b2 ++ spare) _ b1 0x6E (by norm_num)
    (by norm_num) hl2
  have hA2 : (decimal n ++ [0x5C, 0x72, 0x5C]) ++ 0x6E :: b11
      = decimal n ++ DELIMITER ++ b11 := by
    simp [DELIMITER]
  rw [hA2] at hT2
  have hnd : (0x5C : Nat) ∉ decimal n := by
    intro h
    have := decimal_all_digit n _ h
    omega
  have hS2e : ∃ rest, Split ⟨decimal n ++ DELIMITER ++ b11, b12 ++ (b2 ++ spare)⟩ DELIMITER
      = ⟨decimal n, []⟩ :: rest :=
    Split_head 0x5C [0x72, 0x5C, 0x6E] (b12 ++ (b2 ++ spare)) (decimal n) b11 hnd
  obtain ⟨rest2, hS2⟩ := hS2e
  have hAtoi := Atoi_decimal n hn (by omega)
  have hn0 : ¬ (n : Int) = 0 := by omega
  have hdl : (decimal n ++ DELIMITER).length = (decimal n).length + 4 := by
    simp [DELIMITER]
  have hpad : wrapInt (((decimal n).length : Int) + (DELIMITER.length : Int))
      = ((decimal n ++ DELIMITER).length : Int) := by
    have e : ((decimal n).length : Int) + (DELIMITER.length : Int)
        = ((decimal n ++ DELIMITER).length : Int) := by
      simp
    rw [e]
    apply wrapInt_of_fits
    · omega
    · omega
  have hhi : wrapInt (((decimal n ++ DELIMITER).length : Int) + (n : Int))
      = ((decimal n ++ DELIMITER).length : Int) + (b.length : Int) := by
    rw [hb]
    apply wrapInt_of_fits
    · omega
    · omega
  have hslice := Slice.slice_middle (decimal n ++ DELIMITER ++ b11) (b12 ++ (b2 ++ spare))
    (decimal n ++ DELIMITER) b spare (by rw [hb12, hb112]; simp)
  have hsig : ¬ (r0 ≠ 0x23 ∧ r0 ≠ 0x40) := by omega
  have hbody : Slice.slice ⟨decimal n ++ DELIMITER ++ b11, b12 ++ (b2 ++ spare)⟩
      (wrapInt (((decimal n).length : Int) + (DELIMITER.length : Int)))
      (wrapInt (wrapInt (((decimal n).length : Int) + (DELIMITER.length : Int)) + (n : Int)))
      = some ⟨b, spare⟩ := by
    rw [hpad, hhi, hslice]
  unfold Client.msg
  dsimp only
  rw [hT1]
  dsimp only
  rw [hhead, Option.some_bind, if_neg hsig, hS1, List.head?_cons, Option.some_bind]
  dsimp only
  rw [if_neg hrlen, hP, hT2, hS2, List.head?_cons, Option.some_bind]
  dsimp only
  rw [hAtoi]
  dsimp only
  rw [if_neg hn0, hbody, Option.some_bind]

theorem msg_extracts_body_witness :
    (ascii "@a").head? = some 0x40 ∧ 0x20 ∉ ascii "@a" ∧ (ascii "hi").length = 2 ∧
    Client.msg 1 ⟨ascii "@a" ++ [0x20] ++ decimal 2 ++ DELIMITER ++ ascii "hi", [0x0A]⟩ World.init
      = some (none, { World.init with sent :=
          [HubInput.command ⟨ID.MSG, ascii "@a", [], ⟨ascii "hi", [0x0A]⟩⟩] }) :=
  ⟨by decide, by decide, by decide,
    msg_extracts_body 1 World.init (ascii "@a") 2 (ascii "hi") [0x0A] (Or.inr (by decide))
      (by decide) (by decide) (by decide) (by norm_num [decimal, DELIMITER, ascii])⟩

/-- C8: on a negative length, here `-1` in `@a -1` followed by the delimiter
and `x`, `Client.msg` returns no error: `Atoi` accepts the sign, both checks
pass and the slice expression for the body panics.  A zero length and a
missing length are reported as the claim says. -/
theorem msg_negative_length_panics :
    Atoi (ascii "-1") = some (-1) ∧
    (Client.msg 1 (Slice.fresh (ascii "@a -1\\r\\nx")) World.init).isNone = true ∧
    (Client.msg 1 (Slice.fresh (ascii "@a 0\\r\\nx")) World.init).map (fun p => (p.1, p.2.sent))
      = some (some (ascii "body length must be at least 1"), []) ∧
    (Client.msg 1 (Slice.fresh (ascii "@a \\r\\nx")) World.init).map (fun p => (p.1, p.2.sent))
      = some (some (ascii "body length must be present"), []) := by
  decide

/-! ## Routing -/

/-- When the sender is registered and the recipient begins with `@` and is not
registered, `Hub.message` writes `ERR no such user`, without a newline, to the
sender and changes nothing else. -/
theorem message_unknown_user (w : World) (u r : GoString) (m : Slice) (s : ClientRef)
    (hs : GoMap.lookup w.hub.clients u = some s) (hr : r.head? = some 0x40)
    (ht : GoMap.lookup w.hub.clients r = none) :
    Hub.message u r m w
      = some { w with written := w.written ++ [(s, ascii "ERR no such user")] } := by
  simp [Hub.message, hs, hr, ht]

/-- C9: with `@a` registered and `@b` unknown, `Hub.message` writes the
sixteen bytes `ERR no such user` to the sender, with no newline at the end. -/
theorem message_unknown_user_no_newline :
    (Hub.message (ascii "@a") (ascii "@b") (Slice.fresh (ascii "hi")) takenWorld).map
        (fun w => w.written) = some [(1, ascii "ERR no such user")] ∧
    (ascii "ERR no such user").getLast? = some 0x72 ∧
    ascii "ERR no such user" ≠ ascii "ERR no such user\n" := by
  decide

/-- C10: when the sender identifier is registered and the recipient `r` begins
with `@` and is bound to session `t`, `Hub.message` writes the body followed by
a newline, once, to the connection of `t` and changes nothing else. -/
theorem message_user_delivers (w : World) (u r : GoString) (m : Slice) (s t : ClientRef)
    (hs : GoMap.lookup w.hub.clients u = some s) (hr : r.head? = some 0x40)
    (ht : GoMap.lookup w.hub.clients r = some t) :
    Hub.message u r m w = some { w with written := w.written ++ [(t, m.data ++ [0x0A])] } := by
  simp [Hub.message, hs, hr, ht]

theorem message_user_delivers_witness :
    GoMap.lookup freeWorld.hub.clients (ascii "@a") = some 1 ∧
    (Hub.message (ascii "@a") (ascii "@a") (Slice.fresh (ascii "hi")) freeWorld).map
        (fun w => (w.written, w.hub)) = some ([(1, ascii "hi\n")], freeWorld.hub) :=
  ⟨by decide, by
    rw [message_user_delivers freeWorld (ascii "@a") (ascii "@a") (Slice.fresh (ascii "hi")) 1 1
      (by decide) (by decide) (by decide)]
    rfl⟩

/-! ## Groups -/

/-- C12: when the sender is registered, the recipient begins with `#` and
either names no group or names a group the sender's session is not a member
of, `Hub.message` writes nothing and leaves the whole state unchanged. -/
theorem message_group_dropped (w : World) (u r : GoString) (m : Slice) (s : ClientRef)
    (hs : GoMap.lookup w.hub.clients u = some s) (hr : r.head? = some 0x23)
    (h : GoMap.lookup w.hub.channels r = none ∨
      ∃ ch, GoMap.lookup w.hub.channels r = some ch ∧ Channel.has ch (some s) = false) :
    Hub.message u r m w = some w := by
  rcases h with h | ⟨ch, h, hh⟩
  · simp [Hub.message, hs, hr, h]
  · simp [Hub.message, hs, hr, h, hh]

theorem message_group_dropped_witness :
    GoMap.lookup groupWorld.hub.clients (ascii "@c") = some 3 ∧
    (Hub.message (ascii "@c") (ascii "#g") (Slice.fresh (ascii "hi")) groupWorld).map
        (fun w => (w.written, w.hub)) = some ([], groupWorld.hub) ∧
    (Hub.message (ascii "@c") (ascii "#x") (Slice.fresh (ascii "hi")) groupWorld).map
        (fun w => (w.written, w.hub)) = some ([], groupWorld.hub) :=
  ⟨by decide, by
    rw [message_group_dropped groupWorld (ascii "@c") (ascii "#g") (Slice.fresh (ascii "hi")) 3
      (by decide) (by decide) (Or.inr ⟨⟨ascii "#g", some [(some 1, true), (some 2, true)]⟩,
        by decide, by decide⟩)]
    rfl, by
    rw [message_group_dropped groupWorld (ascii "@c") (ascii "#x") (Slice.fresh (ascii "hi")) 3
      (by decide) (by decide) (Or.inl (by decide))]
    rfl⟩

/-- For a registered user and an existing group whose member map is not nil,
`Hub.joinChannel` adds the session of the user to that map and keeps the
other members; on a nil member map it panics. -/
theorem joinChannel_existing_group (w : World) (u g : GoString) (s : ClientRef) (ch : Channel)
    (hs : GoMap.lookup w.hub.clients u = some s)
    (hg : GoMap.lookup w.hub.channels g = some ch) :
    (∀ members, ch.clients = some members →
      Hub.joinChannel u g w = some { w with
        hub := { w.hub with
          channels := GoMap.set w.hub.channels g
            ⟨ch.name, some (GoMap.set members (some s) true)⟩ } }) ∧
    (ch.clients = none → Hub.joinChannel u g w = none) := by
  constructor
  · intro members hm
    simp [Hub.joinChannel, hs, hg, Channel.add, hm]
  · intro hm
    simp [Hub.joinChannel, hs, hg, Channel.add, hm]

/-- C13: for a registered user and a group name that does not exist,
`Hub.joinChannel` does nothing at all: no group is created and nobody is
added.  The creating branch is attached to the test for an unknown user. -/
theorem joinChannel_registered_creates_nothing (w : World) (u g : GoString) (s : ClientRef)
    (hs : GoMap.lookup w.hub.clients u = some s)
    (hg : GoMap.lookup w.hub.channels g = none) :
    Hub.joinChannel u g w = some w := by
  simp [Hub.joinChannel, hs, hg]

theorem joinChannel_registered_creates_nothing_witness :
    GoMap.lookup freeWorld.hub.clients (ascii "@a") = some 1 ∧
    GoMap.lookup freeWorld.hub.channels (ascii "#g") = none ∧
    (Hub.joinChannel (ascii "@a") (ascii "#g") freeWorld).map (fun w => w.hub.channels)
      = some [] :=
  ⟨by decide, by decide, by
    rw [joinChannel_registered_creates_nothing freeWorld (ascii "@a") (ascii "#g") 1
      (by decide) (by decide)]
    rfl⟩

/-- C14: for a user that is not registered, `Hub.joinChannel` panics, whatever
the state: it stores a new channel, whose member map is nil, under the name
and then assigns into that nil map. -/
theorem joinChannel_unregistered_panics (w : World) (u g : GoString)
    (hu : GoMap.lookup w.hub.clients u = none) :
    Hub.joinChannel u g w = none := by
  simp [Hub.joinChannel, hu, GoMap.lookup_set_self, Channel.add, newChannel]

theorem joinChannel_unregistered_panics_witness :
    GoMap.lookup freeWorld.hub.clients (ascii "@z") = none ∧
    Hub.joinChannel (ascii "@z") (ascii "#g") freeWorld = none :=
  ⟨by decide, joinChannel_unregistered_panics freeWorld (ascii "@z") (ascii "#g") (by decide)⟩

/-! ## Leaving -/

/-- C15: `Hub.unregister` never panics; when the username of the session is
not a key of the registry it changes nothing; and doing it twice gives the
state that doing it once gives. -/
theorem unregister_idempotent (w : World) (c : ClientRef) :
    (Hub.run (HubInput.deregistration c) w).isSome = true ∧
    (GoMap.lookup w.hub.clients (w.username c) = none → Hub.unregister c w = w) ∧
    Hub.unregister c (Hub.unregister c w) = Hub.unregister c w := by
  refine ⟨rfl, ?_, ?_⟩
  · intro h
    simp only [Hub.unregister, h]
  · cases h : GoMap.lookup w.hub.clients (w.username c) with
    | none =>
      have e : Hub.unregister c w = w := by simp only [Hub.unregister, h]
      rw [e, e]
    | some t =>
      have e : Hub.unregister c w = { w with
          hub :=
            { clients := GoMap.delete w.hub.clients (w.username c),
              channels := w.hub.channels.map (fun e =>
                (e.1, { e.2 with
                  clients := e.2.clients.map (fun m => GoMap.delete m (some c)) })) } } := by
        simp only [Hub.unregister, h]
      rw [e]
      have h2 : GoMap.lookup (GoMap.delete w.hub.clients (w.username c)) (w.username c) = none :=
        GoMap.lookup_filter_self _ _
      simp only [Hub.unregister, h2]

theorem unregister_idempotent_witness :
    GoMap.lookup freeWorld.hub.clients (freeWorld.username 2) = none ∧
    Hub.unregister 2 freeWorld = freeWorld ∧
    Hub.unregister 1 (Hub.unregister 1 freeWorld) = Hub.unregister 1 freeWorld :=
  ⟨by decide, (unregister_idempotent freeWorld 2).2.1 (by decide),
    (unregister_idempotent freeWorld 1).2.2⟩

/-- What `Hub.register` does on a free name, as one equation. -/
theorem Hub.register_eq_of_free (w : World) (c : ClientRef)
    (h : GoMap.lookup w.hub.clients (w.username c) = none) :
    Hub.register c w = { w with
      hub := { w.hub with clients := GoMap.set w.hub.clients (w.username c) c },
      written := w.written ++ [(c, ascii "OK\n")] } := by
  simp only [Hub.register, h]

/-- What `Hub.unregister` does on a registered name, as one equation. -/
theorem Hub.unregister_eq_of_bound (w : World) (c t : ClientRef)
    (h : GoMap.lookup w.hub.clients (w.username c) = some t) :
    Hub.unregister c w = { w with
      hub :=
        { clients := GoMap.delete w.hub.clients (w.username c),
          channels := w.hub.channels.map (fun e =>
            (e.1, { e.2 with
              clients := e.2.clients.map (fun m => GoMap.delete m (some c)) })) } } := by
  simp only [Hub.unregister, h]

/-- A session is not a member of a channel it has just been deleted from. -/
theorem Channel.has_after_delete (ch : Channel) (c : ClientRef) :
    Channel.has ⟨ch.name, ch.clients.map (fun m => GoMap.delete m (some c))⟩ (some c)
      = false := by
  cases hm : ch.clients with
  | none => simp [Channel.has, hm]
  | some m =>
    have h := GoMap.lookup_filter_self m (some c)
    simp only [Channel.has, hm, Option.map_some', GoMap.delete, h, Option.isSome_none]

/-- C16: from a state in which the name of session `c` is free, after
`Hub.register` of `c` (which answers `OK`) and `Hub.unregister` of `c` the
name is no key of the registry and `c` is a member of no channel; and
`Hub.register` of any session `c2` whose candidate name is that name, in any
later state with the same Hub, writes `OK` and a newline to `c2` and binds the
name to `c2`. -/
theorem register_unregister_register (w : World) (c : ClientRef)
    (hfree : GoMap.lookup w.hub.clients (w.username c) = none) :
    (Hub.register c w).written = w.written ++ [(c, ascii "OK\n")] ∧
    GoMap.lookup (Hub.unregister c (Hub.register c w)).hub.clients (w.username c) = none ∧
    (∀ e ∈ (Hub.unregister c (Hub.register c w)).hub.channels,
      Channel.has e.2 (some c) = false) ∧
    ∀ (w3 : World) (c2 : ClientRef),
      w3.hub = (Hub.unregister c (Hub.register c w)).hub → w3.username c2 = w.username c →
      (Hub.register c2 w3).written = w3.written ++ [(c2, ascii "OK\n")] ∧
      GoMap.lookup (Hub.register c2 w3).hub.clients (w.username c) = some c2 := by
  have e1 := Hub.register_eq_of_free w c hfree
  have hb : GoMap.lookup (Hub.register c w).hub.clients ((Hub.register c w).username c)
      = some c := by
    rw [e1]
    exact GoMap.lookup_set_self _ _ _
  have e2 := Hub.unregister_eq_of_bound (Hub.register c w) c c hb
  have hu : (Hub.register c w).username c = w.username c := by rw [e1]
  have hgone : GoMap.lookup (Hub.unregister c (Hub.register c w)).hub.clients (w.username c)
      = none := by
    rw [e2, hu]
    exact GoMap.lookup_filter_self _ _
  refine ⟨by rw [e1], hgone, ?_, ?_⟩
  · intro e he
    rw [e2] at he
    obtain ⟨x, _, rfl⟩ := List.mem_map.mp he
    exact Channel.has_after_delete x.2 c
  · intro w3 c2 hhub hname
    have hfree3 : GoMap.lookup w3.hub.clients (w3.username c2) = none := by
      rw [hhub, hname]
      exact hgone
    have e3 := Hub.register_eq_of_free w3 c2 hfree3
    rw [e3]
    refine ⟨rfl, ?_⟩
    rw [← hname]
    exact GoMap.lookup_set_self _ _ _

theorem register_unregister_register_witness :
    GoMap.lookup freeWorld.hub.clients (freeWorld.username 2) = none ∧
    GoMap.lookup (Hub.unregister 2 (Hub.register 2 freeWorld)).hub.clients (ascii "@b") = none ∧
    (Hub.register 3 { Hub.unregister 2 (Hub.register 2 freeWorld) with
        username := fun _ => ascii "@b" }).written
      = [(2, ascii "OK\n"), (3, ascii "OK\n")] :=
  ⟨by decide, (register_unregister_register freeWorld 2 (by decide)).2.1,
    ((register_unregister_register freeWorld 2 (by decide)).2.2.2
      { Hub.unregister 2 (Hub.register 2 freeWorld) with username := fun _ => ascii "@b" } 3
      rfl rfl).1⟩

/-! ## Broadcast -/

theorem GoMap.mem_keys {κ ν : Type} [DecidableEq κ] (m : GoMap κ ν) (x : κ) :
    x ∈ GoMap.keys m ↔ (GoMap.lookup m x).isSome = true := by
  induction m with
  | nil => simp [GoMap.keys, GoMap.lookup]
  | cons e rest ih =>
    obtain ⟨k, v⟩ := e
    by_cases hk : k = x
    · simp [GoMap.keys, GoMap.lookup, hk]
    · have hk2 : ¬ x = k := fun h => hk h.symm
      simp [GoMap.keys, GoMap.lookup, hk, hk2, ih]

theorem GoMap.keys_nodup {κ ν : Type} [DecidableEq κ] (m : GoMap κ ν) :
    (GoMap.keys m).Nodup := by
  induction m with
  | nil => simp [GoMap.keys]
  | cons e rest ih =>
    obtain ⟨k, v⟩ := e
    simp only [GoMap.keys, List.nodup_cons]
    refine ⟨?_, ih.filter _⟩
    simp

/-- The loop of `Channel.broadcast` over members none of which is nil. -/
theorem broadcast_loop (msg : List Nat) (cs : List ClientRef) :
    ∀ w : World,
      (cs.map some).foldlM (fun (w1 : World) (cl : ClientPtr) =>
        match cl with
        | none => none
        | some c1 => some { w1 with written := w1.written ++ [(c1, msg)] }) w
      = some { w with written := w.written ++ cs.map (fun c => (c, msg)) } := by
  induction cs with
  | nil => intro w; simp
  | cons c cs ih =>
    intro w
    simp only [List.map_cons, List.foldlM_cons, Option.bind_eq_bind, Option.some_bind, ih]
    simp

/-- C11, as the code has it: when the sender is registered, the recipient
begins with `#` and names a group of which the sender's session is a member,
and no member is nil, `Hub.message` writes one line to every member, the
sender included, and nothing else; the line is the username of the sender's
session, a colon and a space, the body, a newline.  `cs` lists the members in
the order the map is ranged over: each member once, the sender among them, and
nobody else. -/
theorem message_group_broadcast (w : World) (u r : GoString) (m : Slice) (s : ClientRef)
    (ch : Channel) (members : GoMap ClientPtr Bool) (cs : List ClientRef)
    (hs : GoMap.lookup w.hub.clients u = some s) (hr : r.head? = some 0x23)
    (hch : GoMap.lookup w.hub.channels r = some ch) (hm : ch.clients = some members)
    (hin : (GoMap.lookup members (some s)).isSome = true)
    (hk : GoMap.keys members = cs.map some) :
    Hub.message u r m w = some { w with
      written := w.written ++
        cs.map (fun c => (c, w.username s ++ ascii ": " ++ m.data ++ ascii "\n")) } ∧
    cs.Nodup ∧ s ∈ cs ∧
    (∀ c, c ∈ cs ↔ (GoMap.lookup members (some c)).isSome = true) ∧
    cs.length = (cs.erase s).length + 1 := by
  have hmem : ∀ c, c ∈ cs ↔ (GoMap.lookup members (some c)).isSome = true := by
    intro c
    rw [← GoMap.mem_keys, hk]
    simp
  have hnd : cs.Nodup := by
    have h := GoMap.keys_nodup members
    rw [hk] at h
    exact List.Nodup.of_map _ h
  have hsin : s ∈ cs := (hmem s).mpr hin
  refine ⟨?_, hnd, hsin, hmem, ?_⟩
  · have hhas : Channel.has ch (some s) = true := by
      simp only [Channel.has, hm, hin]
    simp only [Hub.message, hs, hr, hch, hhas, if_true, Channel.broadcast, hm, hk]
    exact broadcast_loop _ cs w
  · rw [List.length_erase_of_mem hsin]
    have : 0 < cs.length := List.length_pos_of_mem hsin
    omega

theorem message_group_broadcast_witness :
    GoMap.lookup groupWorld.hub.clients (ascii "@a") = some 1 ∧
    (Hub.message (ascii "@a") (ascii "#g") (Slice.fresh (ascii "hi")) groupWorld).map
        (fun w => w.written) = some [(1, ascii "@a: hi\n"), (2, ascii "@a: hi\n")] :=
  ⟨by decide, by
    rw [(message_group_broadcast groupWorld (ascii "@a") (ascii "#g") (Slice.fresh (ascii "hi")) 1
      ⟨ascii "#g", some [(some 1, true), (some 2, true)]⟩ [(some 1, true), (some 2, true)] [1, 2]
      (by decide) (by decide) (by decide) rfl (by decide) (by decide)).1]
    rfl⟩

/-- C11, as stated, fails: in the group `#g` of sessions 1 and 2 the sender,
session 1, has one other member, and `Hub.message` writes two lines, one of
them to the sender itself. -/
theorem message_group_writes_to_sender :
    GoMap.lookup groupWorld.hub.clients (ascii "@a") = some 1 ∧
    GoMap.lookup groupWorld.hub.channels (ascii "#g")
      = some ⟨ascii "#g", some [(some 1, true), (some 2, true)]⟩ ∧
    (Hub.message (ascii "@a") (ascii "#g") (Slice.fresh (ascii "hi")) groupWorld).map
        (fun w => w.written) = some [(1, ascii "@a: hi\n"), (2, ascii "@a: hi\n")] ∧
    ([(1, ascii "@a: hi\n"), (2, ascii "@a: hi\n")] : List (ClientRef × List Nat)).length ≠ 1 := by
  decide

/-! ## Unknown commands -/

theorem splitGo_ne_nil (sep spare : List Nat) :
    ∀ (s : List Nat) (skip : Nat) (cur : List Nat), splitGo sep spare skip cur s ≠ [] := by
  intro s
  induction s with
  | nil => intro skip cur; simp [splitGo]
  | cons x xs ih =>
    intro skip cur
    cases skip with
    | zero =>
      rw [splitGo]
      split
      · simp
      · exact ih _ _
    | succ k =>
      rw [splitGo]
      exact ih _ _

/-- The call `bytes.Split(...)[0]` never panics: there is always a first
piece. -/
theorem Split_head_isSome (s : Slice) (sep : List Nat) :
    ∃ first, (Split s sep).head? = some first := by
  cases h : Split s sep with
  | nil => exact absurd h (splitGo_ne_nil sep s.spare s.data 0 [])
  | cons p rest => exact ⟨p, rfl⟩

/-- C17: every line has a first space-delimited token, and when that token,
trimmed and upper-cased, is neither `REG` nor `MSG`, `Client.handle` writes
`ERR unknown command `, the upper-cased token and a newline to the connection
of the session, and changes nothing else: nothing is sent to the Hub and no
username changes. -/
theorem handle_unknown_command (unicodeUpper : List Nat → List Nat) (c : ClientRef)
    (message : Slice) (w : World) :
    (∃ first, (Split message [0x20]).head? = some first) ∧
    ∀ first, (Split message [0x20]).head? = some first →
      ToUpper unicodeUpper (TrimSpace first).data ≠ ascii "REG" →
      ToUpper unicodeUpper (TrimSpace first).data ≠ ascii "MSG" →
      Client.handle unicodeUpper c message w = some { w with
        written := w.written ++
          [(c, ascii "ERR unknown command " ++ ToUpper unicodeUpper (TrimSpace first).data
            ++ ascii "\n")] } := by
  refine ⟨Split_head_isSome message [0x20], ?_⟩
  intro first hfirst hreg hmsg
  unfold Client.handle
  rw [hfirst, Option.some_bind]
  dsimp only
  rw [if_neg hreg, if_neg hmsg]
  have e : ascii "ERR unknown command " = ascii "ERR " ++ ascii "unknown command " := by decide
  simp only [Client.err, e, List.append_assoc]

theorem handle_unknown_command_witness :
    (Split (Slice.fresh (ascii "JOIN #g\n")) [0x20]).head? = some ⟨ascii "JOIN", []⟩ ∧
    (Client.handle (fun s => s) 1 (Slice.fresh (ascii "JOIN #g\n")) World.init).map
        (fun w => (w.written, w.sent)) = some ([(1, ascii "ERR unknown command JOIN\n")], []) :=
  ⟨by decide, by
    rw [(handle_unknown_command (fun s => s) 1 (Slice.fresh (ascii "JOIN #g\n")) World.init).2
      ⟨ascii "JOIN", []⟩ (by decide) (by decide) (by decide)]
    decide⟩

/-! ## The recipient of a message -/

theorem splitGo_head_ne_nil (sep spare : List Nat) :
    ∀ (s : List Nat) (skip : Nat) (cur : List Nat), cur ≠ [] →
      ∃ p rest, splitGo sep spare skip cur s = p :: rest ∧ p.data ≠ [] := by
  intro s
  induction s with
  | nil =>
    intro skip cur hcur
    exact ⟨⟨cur.reverse, spare⟩, [], by simp [splitGo], by simpa using hcur⟩
  | cons x xs ih =>
    intro skip cur hcur
    cases skip with
    | zero =>
      rw [splitGo]
      split
      · exact ⟨⟨cur.reverse, []⟩, _, rfl, by simpa using hcur⟩
      · exact ih 0 (x :: cur) (by simp)
    | succ k =>
      rw [splitGo]
      exact ih k cur hcur

/-- The first piece of a split on spaces is not empty when the text does not
begin with a space. -/
theorem Split_space_head_ne_nil (A : Slice) (a0 : Nat) (t : List Nat)
    (hd : A.data = a0 :: t) (ha : a0 ≠ 0x20) :
    ∃ p rest, Split A [0x20] = p :: rest ∧ p.data ≠ [] := by
  have hp : ([0x20] : List Nat).isPrefixOf (a0 :: t) = false := by
    have : ¬ (0x20 : Nat) = a0 := fun h => ha h.symm
    simp [List.isPrefixOf, this]
  have e : Split A [0x20] = splitGo [0x20] A.spare 0 [a0] t := by
    rw [Split, hd, splitGo, hp]
    rfl
  rw [e]
  exact splitGo_head_ne_nil [0x20] A.spare t 0 [a0] (by simp)

/-- What `Client.msg` can return: one of three errors with the state
untouched, or no error with one `Command` sent. -/
theorem Client.msg_cases (c : ClientRef) (args : Slice) (w : World)
    (r : Option GoString × World) (h : Client.msg c args w = some r) :
    (r.2 = w ∧
      (r.1 = some (ascii "recipient must be a channel (\x27#name\x27) or (\x27@user\x27)") ∨
       r.1 = some (ascii "body length must be present") ∨
       r.1 = some (ascii "body length must be at least 1"))) ∨
    (r.1 = none ∧ ∃ cmd, r.2 = { w with sent := w.sent ++ [HubInput.command cmd] }) := by
  unfold Client.msg at h
  dsimp only at h
  generalize TrimSpace args = A at h
  cases hh : A.data.head? with
  | none =>
    rw [hh] at h
    exact absurd h (by simp)
  | some a0 =>
    rw [hh, Option.some_bind] at h
    by_cases hsig : a0 ≠ 0x23 ∧ a0 ≠ 0x40
    · rw [if_pos hsig] at h
      injection h with h
      subst h
      exact Or.inl ⟨rfl, Or.inl rfl⟩
    · rw [if_neg hsig] at h
      obtain ⟨t, hd⟩ : ∃ t, A.data = a0 :: t := by
        cases hA : A.data with
        | nil => rw [hA] at hh; simp at hh
        | cons x xs =>
          rw [hA] at hh
          simp only [List.head?_cons, Option.some.injEq] at hh
          exact ⟨xs, by rw [hh]⟩
      have ha : a0 ≠ 0x20 := by omega
      obtain ⟨p, rest, hS, hp⟩ := Split_space_head_ne_nil A a0 t hd ha
      have hplen : ¬ p.data.length = 0 := fun h0 => hp (List.length_eq_zero.mp h0)
      rw [hS, List.head?_cons, Option.some_bind, if_neg hplen] at h
      generalize TrimSpace (TrimPrefix A p.data) = B at h
      cases hl : (Split B DELIMITER).head? with
      | none =>
        rw [hl] at h
        exact absurd h (by simp)
      | some l =>
        rw [hl, Option.some_bind] at h
        cases hat : Atoi l.data with
        | none =>
          rw [hat] at h
          injection h with h
          subst h
          exact Or.inl ⟨rfl, Or.inr (Or.inl rfl)⟩
        | some length =>
          rw [hat] at h
          dsimp only at h
          by_cases hz : length = 0
          · rw [if_pos hz] at h
            injection h with h
            subst h
            exact Or.inl ⟨rfl, Or.inr (Or.inr rfl)⟩
          · rw [if_neg hz] at h
            cases hsl : B.slice (wrapInt ((l.data.length : Int) + (DELIMITER.length : Int)))
                (wrapInt (wrapInt ((l.data.length : Int) + (DELIMITER.length : Int)) + length)) with
            | none =>
              rw [hsl] at h
              exact absurd h (by simp)
            | some body =>
              rw [hsl, Option.some_bind] at h
              injection h with h
              subst h
              exact Or.inr ⟨rfl, _, rfl⟩

/-- C20: whenever `Client.msg` returns an error, the error is not `recipient
must have a name`: once the first byte is `#` or `@` the recipient token holds
at least that byte. -/
theorem msg_never_nameless (c : ClientRef) (args : Slice) (w w1 : World) (e : GoString)
    (h : Client.msg c args w = some (some e, w1)) :
    e ≠ ascii "recipient must have a name" := by
  rcases Client.msg_cases c args w _ h with ⟨_, h1 | h1 | h1⟩ | ⟨h1, _⟩
  · simp only [Option.some.injEq] at h1
    rw [h1]; decide
  · simp only [Option.some.injEq] at h1
    rw [h1]; decide
  · simp only [Option.some.injEq] at h1
    rw [h1]; decide
  · simp at h1

/-- A recipient that is the sigil alone is accepted. -/
theorem msg_accepts_bare_sigil :
    (Client.msg 1 (Slice.fresh (ascii "# 1\\r\\nx")) World.init).map (fun p => (p.1, p.2.sent))
      = some (none, [HubInput.command ⟨ID.MSG, ascii "#", [], ⟨ascii "x", []⟩⟩]) := by
  decide

theorem msg_never_nameless_witness :
    Client.msg 1 (Slice.fresh (ascii "@a x")) World.init
      = some (some (ascii "body length must be present"), World.init) ∧
    ascii "body length must be present" ≠ ascii "recipient must have a name" :=
  ⟨rfl, msg_never_nameless 1 (Slice.fresh (ascii "@a x")) World.init World.init
    (ascii "body length must be present") rfl⟩

/-! ## Invariants of the reachable states -/

theorem Hub.register_channels (c : ClientRef) (w : World) :
    (Hub.register c w).hub.channels = w.hub.channels := by
  unfold Hub.register
  cases GoMap.lookup w.hub.clients (w.username c) <;> rfl

theorem Hub.unregister_channels_nil (c : ClientRef) (w : World) (h : w.hub.channels = []) :
    (Hub.unregister c w).hub.channels = [] := by
  unfold Hub.unregister
  cases GoMap.lookup w.hub.clients (w.username c) with
  | none => exact h
  | some t => simp [h]

theorem Hub.joinChannel_channels_nil (u g : GoString) (w w1 : World) (h : w.hub.channels = [])
    (hj : Hub.joinChannel u g w = some w1) : w1.hub.channels = [] := by
  cases hu : GoMap.lookup w.hub.clients u with
  | none =>
    simp [Hub.joinChannel, hu, GoMap.lookup_set_self, Channel.add, newChannel] at hj
  | some s =>
    have hg : GoMap.lookup w.hub.channels g = none := by rw [h]; rfl
    simp only [Hub.joinChannel, hu, hg, Option.some.injEq] at hj
    rw [← hj]
    exact h

theorem Hub.message_of_channels_nil (u r : GoString) (m : Slice) (w w1 : World)
    (h : w.hub.channels = []) (hm : Hub.message u r m w = some w1) : w1.hub = w.hub := by
  have hg : GoMap.lookup w.hub.channels r = none := by rw [h]; rfl
  unfold Hub.message at hm
  cases hu : GoMap.lookup w.hub.clients u with
  | none =>
    rw [hu] at hm
    simp only [Option.some.injEq] at hm
    rw [← hm]
  | some s =>
    rw [hu] at hm
    cases hr : r.head? with
    | none => rw [hr] at hm; simp at hm
    | some r0 =>
      rw [hr] at hm
      simp only [hg] at hm
      by_cases h1 : r0 = 0x23
      · simp only [h1, if_true, Option.some.injEq] at hm
        rw [← hm]
      · by_cases h2 : r0 = 0x40
        · simp only [h1, h2, if_true, if_false] at hm
          have h3 : ¬ (0x40 : Nat) = 0x23 := by decide
          cases ht : GoMap.lookup w.hub.clients r with
          | none =>
            rw [ht] at hm
            simp only [h3, if_false, Option.some.injEq] at hm
            rw [← hm]
          | some t =>
            rw [ht] at hm
            simp only [h3, if_false, Option.some.injEq] at hm
            rw [← hm]
        · simp only [h1, h2, if_false, Option.some.injEq] at hm
          rw [← hm]

/-! ## The sessions never touch the Hub -/

theorem Client.reg_hub (c : ClientRef) (args : Slice) (w : World)
    (r : Option GoString × World) (h : Client.reg c args w = some r) : r.2.hub = w.hub := by
  unfold Client.reg at h
  dsimp only at h
  generalize TrimSpace args = U at h
  cases hh : U.data.head? with
  | none =>
    rw [hh] at h
    exact absurd h (by simp)
  | some u0 =>
    rw [hh, Option.some_bind] at h
    by_cases h1 : u0 ≠ 0x40
    · rw [if_pos h1] at h
      injection h with h
      subst h
      rfl
    · rw [if_neg h1] at h
      by_cases h2 : U.data.length = 0
      · rw [if_pos h2] at h
        injection h with h
        subst h
        rfl
      · rw [if_neg h2] at h
        injection h with h
        subst h
        rfl

theorem Client.msg_hub (c : ClientRef) (args : Slice) (w : World)
    (r : Option GoString × World) (h : Client.msg c args w = some r) : r.2.hub = w.hub := by
  rcases Client.msg_cases c args w r h with ⟨h1, _⟩ | ⟨_, cmd, h1⟩
  · rw [h1]
  · rw [h1]

theorem Client.report_hub (c : ClientRef) (r : Option GoString × World) :
    (Client.report c r).hub = r.2.hub := by
  unfold Client.report
  cases r.1 <;> rfl

theorem Client.handle_hub (unicodeUpper : List Nat → List Nat) (c : ClientRef)
    (message : Slice) (w w1 : World) (h : Client.handle unicodeUpper c message w = some w1) :
    w1.hub = w.hub := by
  obtain ⟨first, hfirst⟩ := Split_head_isSome message [0x20]
  unfold Client.handle at h
  rw [hfirst, Option.some_bind] at h
  dsimp only at h
  generalize ToUpper unicodeUpper (TrimSpace first).data = cmd at h
  generalize TrimSpace (TrimPrefix message cmd) = args at h
  by_cases h1 : cmd = ascii "REG"
  · rw [if_pos h1] at h
    cases hr : Client.reg c args w with
    | none => rw [hr] at h; exact absurd h (by simp)
    | some r =>
      rw [hr, Option.map_some'] at h
      injection h with h
      rw [← h, Client.report_hub, Client.reg_hub c args w r hr]
  · rw [if_neg h1] at h
    by_cases h2 : cmd = ascii "MSG"
    · rw [if_pos h2] at h
      cases hr : Client.msg c args w with
      | none => rw [hr] at h; exact absurd h (by simp)
      | some r =>
        rw [hr, Option.map_some'] at h
        injection h with h
        rw [← h, Client.report_hub, Client.msg_hub c args w r hr]
    · rw [if_neg h2] at h
      injection h with h
      rw [← h]
      rfl

/-- A round of `Client.readLoop` leaves the Hub as it was, so it is a `session`
step of `Reachable`. -/
theorem Client.readLoop_hub (unicodeUpper : List Nat → List Nat) (c : ClientRef)
    (r : ReadResult) (w w1 : World) (h : Client.readLoop unicodeUpper c r w = some w1) :
    w1.hub = w.hub := by
  cases r with
  | line msg => exact Client.handle_hub unicodeUpper c (Slice.fresh msg) w w1 h
  | eof =>
    simp only [Client.readLoop, Option.some.injEq] at h
    rw [← h]
  | failed =>
    simp only [Client.readLoop, Option.some.injEq] at h
    rw [← h]

/-! ## What the reachable states look like -/

/-- No reachable state has a channel. -/
theorem reachable_channels_nil (w : World) (h : Reachable w) : w.hub.channels = [] := by
  induction h with
  | init => rfl
  | hub w w1 input _ hrun ih =>
    cases input with
    | registration c =>
      simp only [Hub.run, Option.some.injEq] at hrun
      rw [← hrun, Hub.register_channels]
      exact ih
    | deregistration c =>
      simp only [Hub.run, Option.some.injEq] at hrun
      rw [← hrun]
      exact Hub.unregister_channels_nil c w ih
    | command cmd =>
      unfold Hub.run at hrun
      cases hid : cmd.id <;> simp only [hid] at hrun
      · simp only [Option.some.injEq] at hrun
        rw [← hrun]; exact ih
      · exact Hub.joinChannel_channels_nil _ _ w w1 ih hrun
      · simp only [Option.some.injEq] at hrun
        rw [← hrun]; exact ih
      · rw [Hub.message_of_channels_nil _ _ _ w w1 ih hrun]
        exact ih
      · simp only [Option.some.injEq] at hrun
        rw [← hrun]; exact ih
      · simp only [Option.some.injEq] at hrun
        rw [← hrun]; exact ih
  | session w w1 _ hhub ih =>
    rw [hhub]
    exact ih

/-- The state after session 1 asked for `@a` and the Hub registered it. -/
theorem reachable_after_register :
    Reachable (Hub.register 1 { World.init with username := fun _ => ascii "@a" }) :=
  Reachable.hub { World.init with username := fun _ => ascii "@a" } _ (HubInput.registration 1)
    (Reachable.session World.init _ Reachable.init rfl) rfl

/-! ## The membership invariant along the runs -/

theorem GoMap.lookup_mem {κ ν : Type} [DecidableEq κ] (m : GoMap κ ν) (k : κ) (v : ν)
    (h : GoMap.lookup m k = some v) : (k, v) ∈ m := by
  induction m with
  | nil => simp [GoMap.lookup] at h
  | cons e rest ih =>
    obtain ⟨a, b⟩ := e
    by_cases hak : a = k
    · simp only [GoMap.lookup, hak, if_true, Option.some.injEq] at h
      rw [hak, h]
      exact List.mem_cons_self _ _
    · simp only [GoMap.lookup, hak, if_false] at h
      exact List.mem_cons_of_mem _ (ih h)

theorem GoMap.mem_keys_delete {κ ν : Type} [DecidableEq κ] (m : GoMap κ ν) (x k : κ)
    (h : k ∈ GoMap.keys (GoMap.delete m x)) : k ∈ GoMap.keys m ∧ k ≠ x := by
  rw [GoMap.mem_keys] at h
  by_cases hk : k = x
  · rw [hk, GoMap.delete, GoMap.lookup_filter_self] at h
    simp at h
  · rw [GoMap.delete, GoMap.lookup_filter_ne m x k hk] at h
    exact ⟨(GoMap.mem_keys m k).mpr h, hk⟩

theorem GoMap.mem_keys_set {κ ν : Type} [DecidableEq κ] (m : GoMap κ ν) (x k : κ) (v : ν)
    (h : k ∈ GoMap.keys (GoMap.set m x v)) : k = x ∨ k ∈ GoMap.keys m := by
  by_cases hk : k = x
  · exact Or.inl hk
  · rw [GoMap.mem_keys, GoMap.lookup_set_ne m x k v hk] at h
    exact Or.inr ((GoMap.mem_keys m k).mpr h)

/-- The membership invariant reads the Hub only. -/
theorem MembersRegistered.of_hub (w w1 : World) (h : w1.hub = w.hub)
    (hI : MembersRegistered w) : MembersRegistered w1 := by
  unfold MembersRegistered at *
  rw [h]
  exact hI

/-- The sessions' invariant reads the Hub, the usernames and which sessions
have sent themselves on `unregister`. -/
theorem NamesOwned.of_frame (w w1 : World) (h : w1.hub.clients = w.hub.clients)
    (hu : w1.username = w.username)
    (hs : ∀ c, HubInput.deregistration c ∉ w1.sent → HubInput.deregistration c ∉ w.sent)
    (hN : NamesOwned w) : NamesOwned w1 := by
  unfold NamesOwned at *
  rw [h, hu]
  exact ⟨hN.1, fun c hc => hN.2 c (hs c hc)⟩

/-- The loop of `Channel.broadcast` writes to connections and nothing else. -/
theorem broadcast_loop_frame (msg : List Nat) (ks : List ClientPtr) :
    ∀ w w1 : World,
      ks.foldlM (fun (w1 : World) (cl : ClientPtr) =>
        match cl with
        | none => none
        | some c1 => some { w1 with written := w1.written ++ [(c1, msg)] }) w = some w1 →
      w1.hub = w.hub ∧ w1.username = w.username ∧ w1.sent = w.sent := by
  induction ks with
  | nil =>
    intro w w1 h
    simp only [List.foldlM_nil, Option.pure_def, Option.some.injEq] at h
    rw [← h]
    exact ⟨rfl, rfl, rfl⟩
  | cons k ks ih =>
    intro w w1 h
    cases k with
    | none =>
      simp only [List.foldlM_cons, Option.bind_eq_bind, Option.none_bind] at h
      exact absurd h (by simp)
    | some c1 =>
      simp only [List.foldlM_cons, Option.bind_eq_bind, Option.some_bind] at h
      obtain ⟨h1, h2, h3⟩ := ih _ w1 h
      exact ⟨h1, h2, h3⟩

/-- The method `Hub.message` writes to connections and nothing else. -/
theorem Hub.message_frame (u r : GoString) (m : Slice) (w w1 : World)
    (h : Hub.message u r m w = some w1) :
    w1.hub = w.hub ∧ w1.username = w.username ∧ w1.sent = w.sent := by
  unfold Hub.message at h
  cases hu : GoMap.lookup w.hub.clients u with
  | none =>
    rw [hu] at h
    injection h with h
    rw [← h]
    exact ⟨rfl, rfl, rfl⟩
  | some s =>
    rw [hu] at h
    cases hr : r.head? with
    | none => rw [hr] at h; exact absurd h (by simp)
    | some r0 =>
      rw [hr] at h
      dsimp only at h
      by_cases h1 : r0 = 0x23
      · rw [if_pos h1] at h
        cases hg : GoMap.lookup w.hub.channels r with
        | none =>
          rw [hg] at h
          injection h with h
          rw [← h]
          exact ⟨rfl, rfl, rfl⟩
        | some ch =>
          rw [hg] at h
          dsimp only at h
          by_cases hh : Channel.has ch (some s) = true
          · rw [if_pos hh] at h
            unfold Channel.broadcast at h
            cases hm : ch.clients with
            | none =>
              rw [hm] at h
              injection h with h
              rw [← h]
              exact ⟨rfl, rfl, rfl⟩
            | some members =>
              rw [hm] at h
              exact broadcast_loop_frame _ _ w w1 h
          · rw [if_neg hh] at h
            injection h with h
            rw [← h]
            exact ⟨rfl, rfl, rfl⟩
      · rw [if_neg h1] at h
        by_cases h2 : r0 = 0x40
        · rw [if_pos h2] at h
          cases ht : GoMap.lookup w.hub.clients r with
          | none =>
            rw [ht] at h
            injection h with h
            rw [← h]
            exact ⟨rfl, rfl, rfl⟩
          | some t =>
            rw [ht] at h
            injection h with h
            rw [← h]
            exact ⟨rfl, rfl, rfl⟩
        · rw [if_neg h2] at h
          injection h with h
          rw [← h]
          exact ⟨rfl, rfl, rfl⟩


/-- What `Client.reg` can return: an error with the state untouched, or no
error with a non-empty username set and the session sent for registration. -/
theorem Client.reg_cases (c : ClientRef) (args : Slice) (w : World)
    (r : Option GoString × World) (h : Client.reg c args w = some r) :
    (∃ e, r = (some e, w)) ∨
    (∃ u, u ≠ [] ∧ r = (none, { w with
      username := Function.update w.username c u,
      sent := w.sent ++ [HubInput.registration c] })) := by
  unfold Client.reg at h
  dsimp only at h
  generalize TrimSpace args = U at h
  cases hh : U.data.head? with
  | none =>
    rw [hh] at h
    exact absurd h (by simp)
  | some u0 =>
    rw [hh, Option.some_bind] at h
    by_cases h1 : u0 ≠ 0x40
    · rw [if_pos h1] at h
      injection h with h
      exact Or.inl ⟨_, h.symm⟩
    · rw [if_neg h1] at h
      by_cases h2 : U.data.length = 0
      · rw [if_pos h2] at h
        injection h with h
        exact Or.inl ⟨_, h.symm⟩
      · rw [if_neg h2] at h
        injection h with h
        exact Or.inr ⟨U.data, fun h0 => h2 (by rw [h0]; rfl), h.symm⟩

/-- What `Client.msg` sends when it returns no error is a `Command` with id
`MSG`; with an error the state is untouched. -/
theorem Client.msg_cases_sent (c : ClientRef) (args : Slice) (w : World)
    (r : Option GoString × World) (h : Client.msg c args w = some r) :
    (∃ e, r = (some e, w)) ∨
    (∃ cmd, cmd.id = ID.MSG ∧
      r = (none, { w with sent := w.sent ++ [HubInput.command cmd] })) := by
  unfold Client.msg at h
  dsimp only at h
  generalize TrimSpace args = A at h
  cases hh : A.data.head? with
  | none =>
    rw [hh] at h
    exact absurd h (by simp)
  | some a0 =>
    rw [hh, Option.some_bind] at h
    by_cases hsig : a0 ≠ 0x23 ∧ a0 ≠ 0x40
    · rw [if_pos hsig] at h
      injection h with h
      exact Or.inl ⟨_, h.symm⟩
    · rw [if_neg hsig] at h
      cases hs : (Split A [0x20]).head? with
      | none =>
        rw [hs] at h
        exact absurd h (by simp)
      | some p =>
        rw [hs, Option.some_bind] at h
        by_cases hp : p.data.length = 0
        · rw [if_pos hp] at h
          injection h with h
          exact Or.inl ⟨_, h.symm⟩
        · rw [if_neg hp] at h
          generalize TrimSpace (TrimPrefix A p.data) = B at h
          cases hl : (Split B DELIMITER).head? with
          | none =>
            rw [hl] at h
            exact absurd h (by simp)
          | some l =>
            rw [hl, Option.some_bind] at h
            cases hat : Atoi l.data with
            | none =>
              rw [hat] at h
              injection h with h
              exact Or.inl ⟨_, h.symm⟩
            | some length =>
              rw [hat] at h
              dsimp only at h
              by_cases hz : length = 0
              · rw [if_pos hz] at h
                injection h with h
                exact Or.inl ⟨_, h.symm⟩
              · rw [if_neg hz] at h
                cases hsl : B.slice (wrapInt ((l.data.length : Int) + (DELIMITER.length : Int)))
                    (wrapInt (wrapInt ((l.data.length : Int) + (DELIMITER.length : Int))
                      + length)) with
                | none =>
                  rw [hsl] at h
                  exact absurd h (by simp)
                | some body =>
                  rw [hsl, Option.some_bind] at h
                  injection h with h
                  exact Or.inr ⟨_, rfl, h.symm⟩

/-- What a round of `Client.handle` can do to the Hub, the usernames and the
log of sends: nothing; or set a non-empty username and send the session for
registration; or send a `Command` with id `MSG`. -/
theorem Client.handle_cases (unicodeUpper : List Nat → List Nat) (c : ClientRef)
    (message : Slice) (w w1 : World) (h : Client.handle unicodeUpper c message w = some w1) :
    (w1.hub = w.hub ∧ w1.username = w.username ∧ w1.sent = w.sent) ∨
    (∃ u, u ≠ [] ∧ w1.hub = w.hub ∧ w1.username = Function.update w.username c u ∧
      w1.sent = w.sent ++ [HubInput.registration c]) ∨
    (∃ cmd, cmd.id = ID.MSG ∧ w1.hub = w.hub ∧ w1.username = w.username ∧
      w1.sent = w.sent ++ [HubInput.command cmd]) := by
  obtain ⟨first, hfirst⟩ := Split_head_isSome message [0x20]
  unfold Client.handle at h
  rw [hfirst, Option.some_bind] at h
  dsimp only at h
  generalize ToUpper unicodeUpper (TrimSpace first).data = cmd at h
  generalize TrimSpace (TrimPrefix message cmd) = args at h
  by_cases h1 : cmd = ascii "REG"
  · rw [if_pos h1] at h
    cases hr : Client.reg c args w with
    | none => rw [hr] at h; exact absurd h (by simp)
    | some r =>
      rw [hr, Option.map_some'] at h
      injection h with h
      rcases Client.reg_cases c args w r hr with ⟨e, he⟩ | ⟨u, hu, he⟩
      · rw [← h, he]
        exact Or.inl ⟨rfl, rfl, rfl⟩
      · rw [← h, he]
        exact Or.inr (Or.inl ⟨u, hu, rfl, rfl, rfl⟩)
  · rw [if_neg h1] at h
    by_cases h2 : cmd = ascii "MSG"
    · rw [if_pos h2] at h
      cases hr : Client.msg c args w with
      | none => rw [hr] at h; exact absurd h (by simp)
      | some r =>
        rw [hr, Option.map_some'] at h
        injection h with h
        rcases Client.msg_cases_sent c args w r hr with ⟨e, he⟩ | ⟨k, hk, he⟩
        · rw [← h, he]
          exact Or.inl ⟨rfl, rfl, rfl⟩
        · rw [← h, he]
          exact Or.inr (Or.inr ⟨k, hk, rfl, rfl, rfl⟩)
    · rw [if_neg h2] at h
      injection h with h
      rw [← h]
      exact Or.inl ⟨rfl, rfl, rfl⟩

/-- The Hub has nothing to take when the session sent nothing. -/
theorem Hub.receive_nothing (w w1 : World) (hs : w1.sent = w.sent) :
    Hub.receive w.sent.length w1 = some w1 := by
  unfold Hub.receive
  rw [hs]
  simp

/-- The Hub takes the one value the session sent. -/
theorem Hub.receive_one (w w1 : World) (x : HubInput) (hs : w1.sent = w.sent ++ [x]) :
    Hub.receive w.sent.length w1 = Hub.run x w1 := by
  unfold Hub.receive
  rw [hs, List.drop_left]
  simp

/-- The method `Hub.register`, called on a session that has just set a
non-empty username and sent itself, keeps both invariants. -/
theorem register_keeps (w w1 : World) (c : ClientRef) (u : GoString) (hu : u ≠ [])
    (hh : w1.hub = w.hub) (hun : w1.username = Function.update w.username c u)
    (hs : w1.sent = w.sent ++ [HubInput.registration c])
    (hI : MembersRegistered w) (hN : NamesOwned w) :
    MembersRegistered (Hub.register c w1) ∧ NamesOwned (Hub.register c w1) := by
  have hc : w1.username c = u := by rw [hun]; exact Function.update_same c u w.username
  have hd : ∀ d, d ≠ c → w1.username d = w.username d := by
    intro d hdc
    rw [hun]
    exact Function.update_noteq hdc u w.username
  have hlive : ∀ d, HubInput.deregistration d ∉ w1.sent → HubInput.deregistration d ∉ w.sent := by
    intro d hd1 hd2
    exact hd1 (by rw [hs]; exact List.mem_append_left _ hd2)
  cases hl : GoMap.lookup w1.hub.clients (w1.username c) with
  | some t =>
    have e : Hub.register c w1 = { w1 with
        username := Function.update w1.username c [],
        written := w1.written ++ [(c, ascii "ERR username taken\n")] } := by
      simp only [Hub.register, hl]
    have ehub : (Hub.register c w1).hub = w.hub := by rw [e]; exact hh
    have esent : (Hub.register c w1).sent = w1.sent := by rw [e]
    have euser : (Hub.register c w1).username = Function.update w1.username c [] := by rw [e]
    refine ⟨MembersRegistered.of_hub w _ ehub hI, ?_⟩
    unfold NamesOwned
    rw [ehub, esent, euser]
    refine ⟨hN.1, ?_⟩
    intro d hdl
    by_cases hdc : d = c
    · left
      rw [hdc]
      exact Function.update_same c [] w1.username
    · rw [Function.update_noteq hdc [] w1.username, hd d hdc]
      exact hN.2 d (hlive d hdl)
  | none =>
    have e := Hub.register_eq_of_free w1 c hl
    have echan : (Hub.register c w1).hub.channels = w.hub.channels := by rw [e, ← hh]
    have ecli : (Hub.register c w1).hub.clients = GoMap.set w.hub.clients u c := by
      rw [e, ← hh, ← hc]
    have esent : (Hub.register c w1).sent = w1.sent := by rw [e]
    have euser : (Hub.register c w1).username = w1.username := by rw [e]
    have hfree : GoMap.lookup w.hub.clients u = none := by rw [← hh, ← hc]; exact hl
    have hkeep : ∀ n t, GoMap.lookup w.hub.clients n = some t →
        GoMap.lookup (GoMap.set w.hub.clients u c) n = some t := by
      intro n t hn
      have hne : n ≠ u := by
        intro h0
        rw [h0, hfree] at hn
        exact absurd hn (by simp)
      rw [GoMap.lookup_set_ne _ _ _ _ hne]
      exact hn
    constructor
    · intro e1 he1 members hm k hk
      rw [echan] at he1
      obtain ⟨c1, hk1, n, hn⟩ := hI e1 he1 members hm k hk
      exact ⟨c1, hk1, n, by rw [ecli]; exact hkeep n c1 hn⟩
    · unfold NamesOwned
      rw [ecli, esent, euser]
      constructor
      · rw [GoMap.lookup_set_ne _ _ _ _ (fun h0 => hu h0.symm)]
        exact hN.1
      · intro d hdl
        by_cases hdc : d = c
        · right
          rw [hdc, hc]
          exact GoMap.lookup_set_self _ _ _
        · rw [hd d hdc]
          rcases hN.2 d (hlive d hdl) with h1 | h1
          · exact Or.inl h1
          · exact Or.inr (hkeep _ _ h1)

/-- The method `Hub.unregister`, called on a session that has just met the end
of its stream, keeps both invariants: the session leaves every channel, and the
other members keep their names. -/
theorem unregister_keeps (w w1 : World) (c : ClientRef)
    (hh : w1.hub = w.hub) (hun : w1.username = w.username)
    (hs : w1.sent = w.sent ++ [HubInput.deregistration c])
    (hlive : HubInput.deregistration c ∉ w.sent)
    (hI : MembersRegistered w) (hN : NamesOwned w) :
    MembersRegistered (Hub.unregister c w1) ∧ NamesOwned (Hub.unregister c w1) := by
  have hsub : ∀ d, HubInput.deregistration d ∉ w1.sent →
      d ≠ c ∧ HubInput.deregistration d ∉ w.sent := by
    intro d hd1
    constructor
    · intro hdc
      exact hd1 (by rw [hs, hdc]; exact List.mem_append_right _ (List.mem_singleton_self _))
    · intro hd2
      exact hd1 (by rw [hs]; exact List.mem_append_left _ hd2)
  cases hl : GoMap.lookup w1.hub.clients (w1.username c) with
  | none =>
    have e : Hub.unregister c w1 = w1 := by simp only [Hub.unregister, hl]
    rw [e]
    exact ⟨MembersRegistered.of_hub w w1 hh hI,
      NamesOwned.of_frame w w1 (by rw [hh]) hun (fun d hd1 => (hsub d hd1).2) hN⟩
  | some t =>
    have hown : GoMap.lookup w.hub.clients (w.username c) = some c := by
      rcases hN.2 c hlive with h1 | h1
      · rw [hh, hun, h1, hN.1] at hl
        exact absurd hl (by simp)
      · exact h1
    have e := Hub.unregister_eq_of_bound w1 c t hl
    have echan : (Hub.unregister c w1).hub.channels = w.hub.channels.map (fun e =>
        (e.1, { e.2 with
          clients := e.2.clients.map (fun m => GoMap.delete m (some c)) })) := by
      rw [e, ← hh]
    have ecli : (Hub.unregister c w1).hub.clients
        = GoMap.delete w.hub.clients (w.username c) := by
      rw [e, ← hh, ← hun]
    have esent : (Hub.unregister c w1).sent = w1.sent := by rw [e]
    have euser : (Hub.unregister c w1).username = w.username := by rw [e, ← hun]
    have hkeep : ∀ n t1, t1 ≠ c → GoMap.lookup w.hub.clients n = some t1 →
        GoMap.lookup (GoMap.delete w.hub.clients (w.username c)) n = some t1 := by
      intro n t1 ht1 hn
      have hne : n ≠ w.username c := by
        intro h0
        rw [h0, hown] at hn
        injection hn with hn
        exact ht1 hn.symm
      rw [GoMap.delete, GoMap.lookup_filter_ne _ _ _ hne]
      exact hn
    constructor
    · intro e1 he1 members hm k hk
      rw [echan] at he1
      obtain ⟨x, hx, rfl⟩ := List.mem_map.mp he1
      cases hxc : x.2.clients with
      | none =>
        rw [hxc] at hm
        exact absurd hm (by simp)
      | some m0 =>
        rw [hxc] at hm
        simp only [Option.map_some', Option.some.injEq] at hm
        rw [← hm] at hk
        obtain ⟨hk1, hk2⟩ := GoMap.mem_keys_delete m0 (some c) k hk
        obtain ⟨c1, hc1, n, hn⟩ := hI x hx m0 hxc k hk1
        have hne : c1 ≠ c := fun h0 => hk2 (by rw [hc1, h0])
        exact ⟨c1, hc1, n, by rw [ecli]; exact hkeep n c1 hne hn⟩
    · unfold NamesOwned
      rw [ecli, esent, euser]
      constructor
      · by_cases h0 : ([] : GoString) = w.username c
        · rw [GoMap.delete, ← h0]
          exact GoMap.lookup_filter_self _ _
        · rw [GoMap.delete, GoMap.lookup_filter_ne _ _ _ h0]
          exact hN.1
      · intro d hdl
        obtain ⟨hdc, hdl0⟩ := hsub d hdl
        rcases hN.2 d hdl0 with h1 | h1
        · exact Or.inl h1
        · exact Or.inr (hkeep _ d hdc h1)

/-- The method `Hub.joinChannel`, when it returns, keeps both invariants: the
session it adds is the one the registry binds to the user. -/
theorem joinChannel_keeps (w w1 : World) (u g : GoString)
    (h : Hub.joinChannel u g w = some w1)
    (hI : MembersRegistered w) (hN : NamesOwned w) :
    MembersRegistered w1 ∧ NamesOwned w1 := by
  cases hu : GoMap.lookup w.hub.clients u with
  | none =>
    simp [Hub.joinChannel, hu, GoMap.lookup_set_self, Channel.add, newChannel] at h
  | some s =>
    cases hg : GoMap.lookup w.hub.channels g with
    | none =>
      simp only [Hub.joinChannel, hu, hg, Option.some.injEq] at h
      rw [← h]
      exact ⟨hI, hN⟩
    | some ch =>
      cases hm : ch.clients with
      | none =>
        rw [(joinChannel_existing_group w u g s ch hu hg).2 hm] at h
        exact absurd h (by simp)
      | some m0 =>
        rw [(joinChannel_existing_group w u g s ch hu hg).1 m0 hm] at h
        injection h with h
        have echan : w1.hub.channels = GoMap.set w.hub.channels g
            ⟨ch.name, some (GoMap.set m0 (some s) true)⟩ := by rw [← h]
        have ecli : w1.hub.clients = w.hub.clients := by rw [← h]
        have esent : w1.sent = w.sent := by rw [← h]
        have euser : w1.username = w.username := by rw [← h]
        refine ⟨?_, NamesOwned.of_frame w w1 ecli euser (fun d hd => by rw [← esent]; exact hd) hN⟩
        intro e1 he1 members hmem k hk
        rw [ecli]
        rw [echan, GoMap.set, List.mem_cons] at he1
        rcases he1 with he1 | he1
        · rw [he1] at hmem
          simp only [Option.some.injEq] at hmem
          rw [← hmem] at hk
          rcases GoMap.mem_keys_set m0 (some s) k true hk with hk1 | hk1
          · exact ⟨s, hk1, u, hu⟩
          · exact hI (g, ch) (GoMap.lookup_mem _ _ _ hg) m0 hm k hk1
        · exact hI e1 (List.mem_of_mem_filter he1) members hmem k hk

/-- A round of a session that has not met the end of its stream, with the Hub
handling what it sent, keeps both invariants. -/
theorem step_keeps (w w1 : World) (unicodeUpper : List Nat → List Nat) (c : ClientRef)
    (r : ReadResult) (hlive : HubInput.deregistration c ∉ w.sent)
    (h : step unicodeUpper c r w = some w1)
    (hI : MembersRegistered w) (hN : NamesOwned w) :
    MembersRegistered w1 ∧ NamesOwned w1 := by
  unfold step at h
  cases hrl : Client.readLoop unicodeUpper c r w with
  | none => rw [hrl] at h; exact absurd h (by simp)
  | some w2 =>
    rw [hrl] at h
    dsimp only at h
    have hquiet : w2.hub = w.hub → w2.username = w.username → w2.sent = w.sent →
        MembersRegistered w1 ∧ NamesOwned w1 := by
      intro e1 e2 e3
      rw [Hub.receive_nothing w w2 e3] at h
      injection h with h
      rw [← h]
      exact ⟨MembersRegistered.of_hub w w2 e1 hI,
        NamesOwned.of_frame w w2 (by rw [e1]) e2 (fun d hd => by rw [← e3]; exact hd) hN⟩
    cases r with
    | failed =>
      simp only [Client.readLoop, Option.some.injEq] at hrl
      exact hquiet (by rw [← hrl]) (by rw [← hrl]) (by rw [← hrl])
    | eof =>
      simp only [Client.readLoop, Option.some.injEq] at hrl
      have e3 : w2.sent = w.sent ++ [HubInput.deregistration c] := by rw [← hrl]
      rw [Hub.receive_one w w2 _ e3] at h
      simp only [Hub.run, Option.some.injEq] at h
      rw [← h]
      exact unregister_keeps w w2 c (by rw [← hrl]) (by rw [← hrl]) e3 hlive hI hN
    | line msg =>
      rcases Client.handle_cases unicodeUpper c (Slice.fresh msg) w w2 hrl with
        ⟨e1, e2, e3⟩ | ⟨u, hu, e1, e2, e3⟩ | ⟨cmd, hid, e1, e2, e3⟩
      · exact hquiet e1 e2 e3
      · rw [Hub.receive_one w w2 _ e3] at h
        simp only [Hub.run, Option.some.injEq] at h
        rw [← h]
        exact register_keeps w w2 c u hu e1 e2 e3 hI hN
      · rw [Hub.receive_one w w2 _ e3] at h
        simp only [Hub.run, hid] at h
        obtain ⟨f1, f2, f3⟩ := Hub.message_frame _ _ _ w2 w1 h
        refine ⟨MembersRegistered.of_hub w w1 (by rw [f1, e1]) hI,
          NamesOwned.of_frame w w1 (by rw [f1, e1]) (by rw [f2, e2]) ?_ hN⟩
        intro d hd1 hd2
        exact hd1 (by rw [f3, e3]; exact List.mem_append_left _ hd2)

/-- Both invariants hold along every run from a state in which they hold. -/
theorem runs_keep (w0 w : World) (hI : MembersRegistered w0) (hN : NamesOwned w0)
    (h : RunsFrom w0 w) : MembersRegistered w ∧ NamesOwned w := by
  induction h with
  | start => exact ⟨hI, hN⟩
  | read w w1 unicodeUpper c r _ hlive hstep ih =>
    exact step_keeps w w1 unicodeUpper c r hlive hstep ih.1 ih.2
  | join w w1 u g _ hj ih => exact joinChannel_keeps w w1 u g hj ih.1 ih.2
  | message w w1 u r m _ hm ih =>
    obtain ⟨f1, f2, f3⟩ := Hub.message_frame u r m w w1 hm
    exact ⟨MembersRegistered.of_hub w w1 f1 ih.1,
      NamesOwned.of_frame w w1 (by rw [f1]) f2 (fun d hd => by rw [← f3]; exact hd) ih.2⟩

theorem groupWorld_members : MembersRegistered groupWorld := by
  intro e he members hm k hk
  simp only [groupWorld, List.mem_singleton] at he
  rw [he] at hm
  simp only [Option.some.injEq] at hm
  have hkeys : GoMap.keys ([(some 1, true), (some 2, true)] : GoMap ClientPtr Bool)
      = [some 1, some 2] := by decide
  rw [← hm, hkeys] at hk
  simp only [List.mem_cons, List.not_mem_nil, or_false] at hk
  rcases hk with hk | hk
  · exact ⟨1, hk, ascii "@a", by decide⟩
  · exact ⟨2, hk, ascii "@b", by decide⟩

theorem groupWorld_names : NamesOwned groupWorld := by
  refine ⟨by decide, ?_⟩
  intro c _
  by_cases h1 : c = 1
  · right; rw [h1]; decide
  · by_cases h2 : c = 2
    · right; rw [h2]; decide
    · by_cases h3 : c = 3
      · right; rw [h3]; decide
      · left
        simp [groupWorld, h1, h2, h3]

/-- From `groupWorld`: `@c` joins `#g`, then session 2 meets the end of its
stream. -/
theorem groupWorld_run : RunsFrom groupWorld groupWorldLeft :=
  RunsFrom.read groupWorldJoined groupWorldLeft (fun s => s) 2 ReadResult.eof
    (RunsFrom.join groupWorld groupWorldJoined (ascii "@c") (ascii "#g") RunsFrom.start rfl)
    (by decide) rfl

/-- C18: in every state the Hub can reach from `newHub()` every member of
every channel is a session that some key of the registry is bound to; there it
holds with no member to check, because no such state has a channel.  The
invariant is also kept where there are members: along every run of the program
from any state in which it holds and in which every session that is still
reading owns its username, it holds again; `Hub.unregister` takes the leaving
session out of every channel and `Hub.joinChannel` adds only the session the
registry binds to the user.  The start state is such a state. -/
theorem reachable_members_registered :
    (∀ w, Reachable w → MembersRegistered w) ∧
    (∀ w0 w, MembersRegistered w0 → NamesOwned w0 → RunsFrom w0 w → MembersRegistered w) ∧
    MembersRegistered World.init ∧ NamesOwned World.init := by
  refine ⟨?_, ?_, ?_, ?_⟩
  · intro w h e he
    rw [reachable_channels_nil w h] at he
    exact absurd he (List.not_mem_nil e)
  · intro w0 w hI hN h
    exact (runs_keep w0 w hI hN h).1
  · intro e he
    exact absurd he (List.not_mem_nil e)
  · exact ⟨rfl, fun c _ => Or.inl rfl⟩

theorem reachable_members_registered_witness :
    MembersRegistered groupWorld ∧ NamesOwned groupWorld ∧
    RunsFrom groupWorld groupWorldLeft ∧
    groupWorldLeft.hub.channels
      = [(ascii "#g", ⟨ascii "#g", some [(some 3, true), (some 1, true)]⟩)] ∧
    MembersRegistered groupWorldLeft :=
  ⟨groupWorld_members, groupWorld_names, groupWorld_run, rfl,
    reachable_members_registered.2.1 groupWorld groupWorldLeft groupWorld_members
      groupWorld_names groupWorld_run⟩

/-- C19: in every reachable state the channels map is empty, and therefore
`Hub.message` to a recipient that begins with `#` writes nothing and changes
nothing, whoever sends it: `Channel.broadcast` is not reached. -/
theorem reachable_no_channels (w : World) (h : Reachable w) :
    w.hub.channels = [] ∧
    ∀ (u r : GoString) (m : Slice), r.head? = some 0x23 → Hub.message u r m w = some w := by
  have hnil := reachable_channels_nil w h
  refine ⟨hnil, ?_⟩
  intro u r m hr
  have hg : GoMap.lookup w.hub.channels r = none := by rw [hnil]; rfl
  cases hu : GoMap.lookup w.hub.clients u with
  | none => simp [Hub.message, hu]
  | some s => simp [Hub.message, hu, hr, hg]

theorem reachable_no_channels_witness :
    Reachable (Hub.register 1 { World.init with username := fun _ => ascii "@a" }) ∧
    (Hub.register 1 { World.init with username := fun _ => ascii "@a" }).hub.channels = [] :=
  ⟨reachable_after_register, (reachable_no_channels _ reachable_after_register).1⟩

end ChatProtocol
